import Mathlib

/-!
Verification of the SamerAlgorithms expression-to-quadratic-model compiler.

The repository ships usage traces (a notebook driving `Expression`, `fVar`,
`Qubits`, `DecodeSolution`) while the compiler core itself is described by the
accompanying specification.  The development below embeds the expression trees
and validation arithmetic that appear verbatim in the notebook, and models the
missing compiler core (registry, gadget compiler, model assembler, decoder)
from the specification.  Theorems at the end settle the frozen claims.
-/

namespace SamerAlgorithms

/-- Arithmetic operators supported by the expression tree (spec section 3:
BinaryOp with operator in Add, Sub, Mul, Mod). -/
inductive Op
  | add
  | sub
  | mul
  | mod
  deriving DecidableEq, Repr

/-- Expression tree node (spec section 3): Literal(integer), VariableRef(name),
BinaryOp(op, left, right). -/
inductive Expr
  | lit (n : Int)
  | var (name : String)
  | binOp (op : Op) (l r : Expr)
  deriving DecidableEq, Repr

/-- Error taxonomy of the core (spec section 7). -/
inductive CErr
  | DuplicateVariable
  | InvalidWidth
  | UnknownVariable
  | ValueOutOfRange
  deriving DecidableEq, Repr

/-- Modelled from the spec: a registry entry.  A Variable has a unique name, a
bit-width, and a role Free/Fixed; a Fixed variable carries its supplied value
(spec section 3, "Variable", and section 9: variant Free(width) vs
Fixed(width, value), here `fixedVal = none` vs `some v`). -/
structure VarInfo where
  name : String
  width : Nat
  fixedVal : Option Nat
  deriving DecidableEq, Repr

/-- Modelled from the spec: look a variable up by name (first declaration
wins; `declare` never creates duplicates). -/
def lookupVar (reg : List VarInfo) (x : String) : Option VarInfo :=
  reg.find? (fun v => v.name == x)

/-- Modelled from the spec (section 4.1): `declare(name, width)` appends a new
free variable; fails with DuplicateVariable if the name is already declared,
with InvalidWidth if width is not positive.  Returns the new registry together
with the VariableId (its index). -/
def declare (reg : List VarInfo) (x : String) (w : Int) : Except CErr (List VarInfo × Nat) :=
  if (lookupVar reg x).isSome then .error .DuplicateVariable
  else if w ≤ 0 then .error .InvalidWidth
  else .ok (reg ++ [⟨x, w.toNat, none⟩], reg.length)

/-- Modelled from the spec (section 4.1): `markFixed(name, value)` records the
value of a Fixed variable; fails with UnknownVariable if the name is not
declared, with ValueOutOfRange if the value does not fit the declared width. -/
def markFixed (reg : List VarInfo) (x : String) (v : Nat) : Except CErr (List VarInfo) :=
  match lookupVar reg x with
  | none => .error .UnknownVariable
  | some info =>
      if 2 ^ info.width ≤ v then .error .ValueOutOfRange
      else .ok (reg.map (fun u => if u.name = x then ⟨u.name, u.width, some v⟩ else u))

/-- Modelled from the spec: total number of variable bits; variables receive
contiguous blocks of bit indices in declaration order (spec sections 3, 4.1). -/
def totalWidth (reg : List VarInfo) : Nat :=
  (reg.map (fun v => v.width)).sum

/-- Modelled from the spec: find a variable together with its bit offset.
`findVar reg x off` scans the registry accumulating widths so the returned
offset is the index of the variable's first (least significant) bit. -/
def findVar : List VarInfo → String → Nat → Option (Nat × VarInfo)
  | [], _, _ => none
  | v :: vs, x, off => if v.name = x then some (off, v) else findVar vs x (off + v.width)

/-- The contiguous bit indices `[n, n+1, ..., n+w-1]` of a block of width `w`
starting at index `n` (least significant first; bit i has weight 2^i). -/
def blockBits : Nat → Nat → List Nat
  | _, 0 => []
  | n, w + 1 => n :: blockBits (n + 1) w

/-- Bool to Nat. -/
def b2n (b : Bool) : Nat := if b then 1 else 0

/-- Bool to Int. -/
def b2i (b : Bool) : Int := if b then 1 else 0

/-- Decode an ordered list of bit indices under a global bit assignment:
the value is the unsigned binary expansion, head bit has weight 1
(spec: value reconstructed as the sum of bit_i * 2^i). -/
def decodeBits (σ : Nat → Bool) : List Nat → Nat
  | [] => 0
  | i :: rest => b2n (σ i) + 2 * decodeBits σ rest

/-- Encode a value into its `w`-bit unsigned binary expansion, least
significant bit first (spec section 4.1: bit i has weight 2^i). -/
def encodeNat : Nat → Nat → List Bool
  | 0, _ => []
  | w + 1, v => (decide (v % 2 = 1)) :: encodeNat w (v / 2)

/-- Decode a list of bits (LSB first) back into a value. -/
def decodeBools : List Bool → Nat
  | [] => 0
  | b :: rest => b2n b + 2 * decodeBools rest

/-- Read bit `i` from a canonical bit list (out-of-range bits read as 0). -/
def bitOf (c : List Bool) (i : Nat) : Bool := c.getD i false

/-- The exact AND-linearization penalty used by the multiplication gadget
(spec section 4.3, Mul): `l*r - 2*l*aux - 2*r*aux + 3*aux`. -/
def andPenalty (l r aux : Int) : Int :=
  l * r - 2 * l * aux - 2 * r * aux + 3 * aux

/-- Modelled from the spec: a quadratic penalty term of the assembled model.
`andGate l r aux` is the AND-linearization penalty on three bits; `linEq ts c`
is the square of the affine form `c + Σ coef * bit`, a quadratic polynomial
over the bits that is zero exactly on assignments satisfying the linear
constraint (spec section 3, "Gadget Output": a quadratic polynomial that is
zero at any valid encoding and strictly positive otherwise). -/
inductive Penalty
  | andGate (l r aux : Nat)
  | linEq (ts : List (Int × Nat)) (c : Int)
  deriving DecidableEq, Repr

/-- Value of an affine form over bits. -/
def lform (σ : Nat → Bool) (ts : List (Int × Nat)) (c : Int) : Int :=
  c + (ts.map (fun t => t.1 * b2i (σ t.2))).sum

/-- Energy contribution of one penalty term at a bit assignment. -/
def penaltyVal (σ : Nat → Bool) : Penalty → Int
  | .andGate l r aux => andPenalty (b2i (σ l)) (b2i (σ r)) (b2i (σ aux))
  | .linEq ts c => (lform σ ts c) ^ 2

/-- The internal consistency constraint of a penalty: the auxiliary bit of an
AND gadget equals the conjunction of its inputs; an affine-equality penalty
holds when its affine form vanishes. -/
def Consistent (σ : Nat → Bool) : Penalty → Prop
  | .andGate l r aux => σ aux = (σ l && σ r)
  | .linEq ts c => lform σ ts c = 0

/-- Modelled from the spec: a gadget's result, either a folded integer
constant (spec section 4.3, Literal: the value is folded as a constant into
consuming gadgets rather than allocated as bits) or an ordered block of bit
indices. -/
inductive Operand
  | const (n : Int)
  | block (bs : List Nat)
  deriving DecidableEq, Repr

/-- Integer value of an operand under a bit assignment. -/
def operandVal (σ : Nat → Bool) : Operand → Int
  | .const n => n
  | .block bs => (decodeBits σ bs : Int)

/-- Structural helper computing the binary length of `n` with fuel. -/
def bitLenAux : Nat → Nat → Nat
  | 0, _ => 0
  | fuel + 1, n => if n = 0 then 0 else bitLenAux fuel (n / 2) + 1

/-- Binary length of a natural number: the least w with n < 2^w. -/
def bitLen (n : Nat) : Nat := bitLenAux n n

/-- Bit-width of an operand: block length, or the binary size of a constant. -/
def opWidth : Operand → Nat
  | .const n => bitLen n.toNat
  | .block bs => bs.length

/-- Modelled from the spec: compiler state.  `nextBit` is the append-only
monotone bit allocator (spec section 3, "Bit"), `pens` the penalty terms
accumulated so far, and `canon` the canonical values of all allocated bits
(the assignment that reconstructs the compiled expression's own arithmetic,
spec section 3, "Quadratic Model"). -/
structure CState where
  nextBit : Nat
  pens : List Penalty
  canon : List Bool
  deriving Repr

/-- Append a penalty term to the model. -/
def emit (p : Penalty) (st : CState) : CState :=
  ⟨st.nextBit, p :: st.pens, st.canon⟩

/-- Allocate a fresh block of `w` bits whose canonical value is `v`. -/
def pushBlock (w : Nat) (v : Int) (st : CState) : CState :=
  ⟨st.nextBit + w, st.pens, st.canon ++ encodeNat w v.toNat⟩

/-- Allocate one fresh auxiliary bit with canonical value `v`. -/
def pushBit (v : Bool) (st : CState) : CState :=
  ⟨st.nextBit + 1, st.pens, st.canon ++ [v]⟩

/-- Weighted terms of a block: bit i receives coefficient `s * 2^i`. -/
def wTerms (s : Int) : List Nat → List (Int × Nat)
  | [] => []
  | b :: rest => (s, b) :: wTerms (2 * s) rest

/-- Terms contributed by an operand with scale `s`: a constant folds into the
constant part, a block contributes weighted bit terms. -/
def opTerms (s : Int) : Operand → List (Int × Nat) × Int
  | .const n => ([], s * n)
  | .block bs => (wTerms s bs, 0)

/-- Build the affine-equality penalty for `c + Σ sᵢ * operandᵢ = 0`. -/
def eqPen (parts : List (Int × Operand)) (c : Int) : Penalty :=
  .linEq (parts.foldr (fun p acc => (opTerms p.1 p.2).1 ++ acc) [])
    (parts.foldr (fun p acc => (opTerms p.1 p.2).2 + acc) c)

/-- Canonical value of an operand at the current state. -/
def opCanon (st : CState) (a : Operand) : Int :=
  operandVal (bitOf st.canon) a

/-- Modelled from the spec (section 4.3, Add): the addition gadget.  The
result block has width `max(width L, width R) + 1` to accommodate the carry;
one quadratic penalty links the inputs to the result so that any inconsistent
carry/output combination is penalized. -/
def addOp (a b : Operand) (st : CState) : Operand × CState :=
  let w := max (opWidth a) (opWidth b) + 1
  let bs := blockBits st.nextBit w
  (.block bs,
    emit (eqPen [(1, .block bs), (-1, a), (-1, b)] 0)
      (pushBlock w (opCanon st a + opCanon st b) st))

/-- Modelled from the spec (section 4.3, Sub): subtraction realized as
addition with a borrow: the penalty enforces `D + R = L`, no forced
non-negativity beyond the unsigned encoding of the result block. -/
def subOp (a b : Operand) (st : CState) : Operand × CState :=
  let w := opWidth a
  let bs := blockBits st.nextBit w
  (.block bs,
    emit (eqPen [(1, .block bs), (1, b), (-1, a)] 0)
      (pushBlock w (opCanon st a - opCanon st b) st))

/-- One row of partial products: auxiliary AND bits of a left bit `l` with
every bit of the right block, starting at weight `s` (doubling along the
row).  Each auxiliary bit is forced to the conjunction via `andPenalty`. -/
def mulRow (l : Nat) : List Nat → Int → CState → List (Int × Nat) × CState
  | [], _, st => ([], st)
  | r :: rest, s, st =>
      let aux := st.nextBit
      let st1 := emit (.andGate l r aux) (pushBit (bitOf st.canon l && bitOf st.canon r) st)
      let res := mulRow l rest (2 * s) st1
      ((s, aux) :: res.1, res.2)

/-- All rows of partial products of two blocks (shift-and-add layout). -/
def mulRows : List Nat → List Nat → Int → CState → List (Int × Nat) × CState
  | [], _, _, st => ([], st)
  | l :: ls, lb, s, st =>
      let r1 := mulRow l lb s st
      let r2 := mulRows ls lb (2 * s) r1.2
      (r1.1 ++ r2.1, r2.2)

/-- Modelled from the spec (section 4.3, Mul): multiplication by
shift-and-add of AND gadgets.  For two blocks, every pair of input bits gets
an auxiliary product bit (forced by `andPenalty`), and the weighted partial
products are summed into the result block by an adder penalty.  A constant
factor is folded directly into the weighted adder penalty. -/
def mulOp (a b : Operand) (st : CState) : Operand × CState :=
  match a, b with
  | .block la, .block lb =>
      let rows := mulRows la lb 1 st
      let w := la.length + lb.length
      let ms := blockBits rows.2.nextBit w
      let st2 := pushBlock w (opCanon st (.block la) * opCanon st (.block lb)) rows.2
      (.block ms,
        emit (.linEq (wTerms 1 ms ++ rows.1.map (fun t => (-t.1, t.2))) 0) st2)
  | .const m, bb =>
      let w := bitLen m.toNat + opWidth bb
      let ms := blockBits st.nextBit w
      (.block ms,
        emit (eqPen [(1, .block ms), (-m, bb)] 0)
          (pushBlock w (m * opCanon st bb) st))
  | aa, .const n =>
      let w := bitLen n.toNat + opWidth aa
      let ms := blockBits st.nextBit w
      (.block ms,
        emit (eqPen [(1, .block ms), (-n, aa)] 0)
          (pushBlock w (opCanon st aa * n) st))

/-- Modelled from the spec (section 4.3, Mod): the modulo gadget introduces a
quotient block Q (width of L, sufficient since R ≥ 1 in any consistent
state), a remainder block Rem (width of R), a penalty enforcing
`L = Q*R + Rem` built from the Mul and Add gadget penalties, and a
comparator `Rem < R` realized with a slack block: `Rem + slack + 1 = R`.
Result bits are Rem. -/
def modOp (a b : Operand) (st : CState) : Operand × CState :=
  let wQ := opWidth a
  let wR := opWidth b
  let vL := opCanon st a
  let vR := opCanon st b
  let qv : Int := if vR = 0 then 0 else Int.fdiv vL vR
  let rv : Int := if vR = 0 then 0 else Int.fmod vL vR
  let qs := blockBits st.nextBit wQ
  let st1 := pushBlock wQ qv st
  let rs := blockBits st1.nextBit wR
  let st2 := pushBlock wR rv st1
  let mres := mulOp (.block qs) b st2
  let st4 := emit (eqPen [(1, mres.1), (1, .block rs), (-1, a)] 0) mres.2
  let ss := blockBits st4.nextBit wR
  let st5 := pushBlock wR (vR - rv - 1) st4
  let st6 := emit (eqPen [(1, .block rs), (1, .block ss), (-1, b)] 1) st5
  (.block rs, st6)

/-- Modelled from the spec (section 4.3): the gadget compiler walks the tree
bottom-up.  Literals fold to constants; a Fixed variable folds to its
recorded constant (spec section 4.1: forced bits are substituted as constants
and eliminated); a Free variable yields its allocated block. -/
def compileE (reg : List VarInfo) : Expr → CState → Operand × CState
  | .lit n, st => (.const n, st)
  | .var x, st =>
      (match findVar reg x 0 with
        | none => .const 0
        | some oi =>
            match oi.2.fixedVal with
            | some v => .const (v : Int)
            | none => .block (blockBits oi.1 oi.2.width), st)
  | .binOp o l r, st =>
      let al := compileE reg l st
      let ar := compileE reg r al.2
      match o with
      | .add => addOp al.1 ar.1 ar.2
      | .sub => subOp al.1 ar.1 ar.2
      | .mul => mulOp al.1 ar.1 ar.2
      | .mod => modOp al.1 ar.1 ar.2

/-- Modelled from the spec: the canonical seed assignment of the declared
variable bits; a Fixed variable's bits take its recorded value, a Free
variable's bits take the binary expansion of `env`. -/
def initCanon : List VarInfo → (String → Nat) → List Bool
  | [], _ => []
  | v :: vs, env =>
      encodeNat v.width (match v.fixedVal with | some n => n | none => env v.name)
        ++ initCanon vs env

/-- Initial compiler state: all declared variable bits allocated up front. -/
def initState (reg : List VarInfo) (env : String → Nat) : CState :=
  ⟨totalWidth reg, [], initCanon reg env⟩

/-- Modelled from the spec (section 4.4): the assembled quadratic model, a
collection of penalty terms over globally indexed bits together with the
variable layout used by the decoder. -/
structure Model where
  reg : List VarInfo
  root : Operand
  pens : List Penalty
  bitCount : Nat
  deriving DecidableEq, Repr

/-- Compile an expression against a registry and a seed assignment, then add
the equality-to-target penalty comparing the root result to the target
(spec section 4.4, `assemble`). -/
def compileModel (reg : List VarInfo) (e : Expr) (target : Int) (env : String → Nat) : Model :=
  let res := compileE reg e (initState reg env)
  let st := emit (eqPen [(1, res.1)] (-target)) res.2
  ⟨reg, res.1, st.pens, st.nextBit⟩

/-- Variables referenced by an expression. -/
def varsOf : Expr → List String
  | .lit _ => []
  | .var x => [x]
  | .binOp _ l r => varsOf l ++ varsOf r

/-- Modelled from the spec (section 4.2): tree construction rejects
undeclared-variable references with UnknownVariable before compilation
allocates anything. -/
def checkVars (reg : List VarInfo) (e : Expr) : Except CErr Unit :=
  if (varsOf e).all (fun x => (findVar reg x 0).isSome) then .ok () else .error .UnknownVariable

/-- Modelled from the spec (section 4.4): assemble the model of
`e = target`, failing with UnknownVariable when the tree references an
undeclared variable.  The seed assignment of the free bits is immaterial to
the penalties (proved below) and is taken to be all zeros. -/
def assemble (reg : List VarInfo) (e : Expr) (target : Int) : Except CErr Model :=
  match checkVars reg e with
  | .error er => .error er
  | .ok _ => .ok (compileModel reg e target (fun _ => 0))

/-- Energy of a bit assignment: the sum of all penalty terms
(spec section 3, "Quadratic Model"). -/
def energy (m : Model) (σ : Nat → Bool) : Int :=
  (m.pens.map (penaltyVal σ)).sum

/-- The integer environment read back from a bit assignment: a Fixed variable
reports its recorded value, a Free variable the decoded value of its block. -/
def envOf (reg : List VarInfo) (σ : Nat → Bool) (x : String) : Int :=
  match findVar reg x 0 with
  | some oi =>
      match oi.2.fixedVal with
      | some v => (v : Int)
      | none => (decodeBits σ (blockBits oi.1 oi.2.width) : Int)
  | none => 0

/-- One binary operator over the integers with Python's floor-mod semantics
(`Int.fmod` agrees with Python's `%`; modulo by zero is undefined). -/
def applyOp : Op → Int → Int → Option Int
  | .add, va, vb => some (va + vb)
  | .sub, va, vb => some (va - vb)
  | .mul, va, vb => some (va * vb)
  | .mod, va, vb => if vb = 0 then none else some (Int.fmod va vb)

/-- Evaluation of an expression tree over the integers, exactly as the
notebook's validation cells compute it in Python. -/
def evalExpr (env : String → Int) : Expr → Option Int
  | .lit n => some n
  | .var x => some (env x)
  | .binOp o l r =>
      match evalExpr env l, evalExpr env r with
      | some va, some vb => applyOp o va vb
      | _, _ => none

/-- One binary operator restricted to nonnegative results: like `applyOp`
but undefined when the result would be negative or the modulus is not
positive. -/
def applyOpNN : Op → Int → Int → Option Int
  | .add, va, vb => some (va + vb)
  | .sub, va, vb => if vb ≤ va then some (va - vb) else none
  | .mul, va, vb => some (va * vb)
  | .mod, va, vb => if 0 < vb then some (Int.fmod va vb) else none

/-- Evaluation restricted to nonnegative intermediate results: like
`evalExpr` but undefined as soon as any node value is negative or a modulus
is not positive.  This captures the spec's documented assumption (section
4.3, Sub) that negative intermediate results are out of scope for the
unsigned gadget encoding. -/
def evalNN (env : String → Int) : Expr → Option Int
  | .lit n => if 0 ≤ n then some n else none
  | .var x => if 0 ≤ env x then some (env x) else none
  | .binOp o l r =>
      match evalNN env l, evalNN env r with
      | some va, some vb => applyOpNN o va vb
      | _, _ => none

/-- A decoded sample: mapping from free-variable name to reconstructed value,
with the sample's energy re-attached (spec section 3, "Decoded Sample"). -/
structure DecodedSample where
  sample : List (String × Nat)
  energy : Int
  deriving DecidableEq, Repr

/-- Modelled from the spec (section 4.5): reconstruct every Free variable's
value as the sum of bit_i * 2^i over its allocated bits; Fixed variables are
omitted from the output mapping. -/
def decodeVars (σ : Nat → Bool) : List VarInfo → Nat → List (String × Nat)
  | [], _ => []
  | v :: vs, off =>
      let rest := decodeVars σ vs (off + v.width)
      match v.fixedVal with
      | some _ => rest
      | none => (v.name, decodeBits σ (blockBits off v.width)) :: rest

/-- Modelled from the spec (section 4.5): `decode` maps each complete sample
to its decoded record, preserving one-to-one correspondence and input order;
no sorting, selection or filtering of samples. -/
def DecodeSolution (m : Model) (ss : List ((Nat → Bool) × Int)) : List DecodedSample :=
  ss.map (fun s => ⟨decodeVars s.1 m.reg 0, s.2⟩)

/-- The value of the affine form behind `eqPen`. -/
def partsVal (σ : Nat → Bool) (parts : List (Int × Operand)) (c : Int) : Int :=
  c + (parts.map (fun p => p.1 * operandVal σ p.2)).sum

/-- All listed penalties vanish at the assignment. -/
def PensZero (σ : Nat → Bool) (ps : List Penalty) : Prop :=
  ∀ p ∈ ps, penaltyVal σ p = 0

/-- All bit indices mentioned by a penalty lie below `n`. -/
def PBelow (n : Nat) : Penalty → Prop
  | .andGate l r aux => l < n ∧ r < n ∧ aux < n
  | .linEq ts _ => ∀ t ∈ ts, t.2 < n

instance instDecidablePBelow (n : Nat) (p : Penalty) : Decidable (PBelow n p) :=
  match p with
  | .andGate l r aux => inferInstanceAs (Decidable (l < n ∧ r < n ∧ aux < n))
  | .linEq ts _ => inferInstanceAs (Decidable (∀ t ∈ ts, t.2 < n))

/-- All bit indices of an operand lie below `n`. -/
def OpBelow (n : Nat) : Operand → Prop
  | .const _ => True
  | .block bs => ∀ i ∈ bs, i < n

/-- Well-formed compiler state: the canonical list covers exactly the
allocated bits and every penalty mentions only allocated bits. -/
def WFC (st : CState) : Prop :=
  st.canon.length = st.nextBit ∧ ∀ p ∈ st.pens, PBelow st.nextBit p

/-- A compilation step extends the state: the bit allocator is monotone and
the canonical list grows append-only. -/
def StepOK (st su : CState) : Prop :=
  WFC su ∧ st.nextBit ≤ su.nextBit ∧ ∃ ext, su.canon = st.canon ++ ext

/-- The environment agrees with the registry's Fixed values. -/
def FixedEnc (reg : List VarInfo) (fe : String → Int) : Prop :=
  ∀ x oi, findVar reg x 0 = some oi → ∀ f, oi.2.fixedVal = some f → fe x = (f : Int)

/-- The canonical seed encodes the environment: every free variable's block
decodes to its environment value. -/
def VarsEnc (reg : List VarInfo) (env : String → Int) (st : CState) : Prop :=
  ∀ x oi, findVar reg x 0 = some oi → oi.2.fixedVal = none →
    ((decodeBits (bitOf st.canon) (blockBits oi.1 oi.2.width) : Nat) : Int) = env x

/-- The full integer environment of a registry: Fixed variables read their
recorded value, Free variables read `env`. -/
def fullEnv (reg : List VarInfo) (env : String → Nat) (x : String) : Int :=
  match findVar reg x 0 with
  | some oi =>
      match oi.2.fixedVal with
      | some v => (v : Int)
      | none => (env x : Int)
  | none => 0

/-- Every Fixed value fits its declared width (guaranteed by `markFixed`). -/
def RegOK (reg : List VarInfo) : Prop :=
  ∀ v ∈ reg, ∀ f, v.fixedVal = some f → f < 2 ^ v.width

/-- The free-variable assignment fits the declared widths. -/
def FreeBound (reg : List VarInfo) (env : String → Nat) : Prop :=
  ∀ v ∈ reg, v.fixedVal = none → env v.name < 2 ^ v.width

/-! ### Concrete artifacts from the notebook (source-derived)

The registries record the `Qubits`/`fVar` declarations of the notebook cells
and the expression trees are the `Expr` bodies of the `Minimize` functions;
the environments are the decoded best samples printed by the notebook. -/

/-- Example 1 registry: a, b, d free with 3 qubits, c fixed to 6. -/
def reg1 : List VarInfo :=
  [⟨"a", 3, none⟩, ⟨"b", 3, none⟩, ⟨"c", 3, some 6⟩, ⟨"d", 3, none⟩]

/-- Example 1 expression: ((a * b) + c) % d. -/
def expr1 : Expr :=
  .binOp .mod (.binOp .add (.binOp .mul (.var "a") (.var "b")) (.var "c")) (.var "d")

/-- Example 1 decoded best sample: a = 7, b = 7, d = 5. -/
def env1 : String → Nat :=
  fun x => if x = "a" then 7 else if x = "b" then 7 else if x = "d" then 5 else 0

/-- The assembled model of Example 1 (target 0). -/
def model1 : Model := compileModel reg1 expr1 0 (fun _ => 0)

/-- The canonical bit assignment of Example 1 at a = 7, b = 7, d = 5:
variable bits seeded from the sample, every auxiliary bit at its canonical
(gadget-consistent) value. -/
def sigma1 : Nat → Bool := bitOf (compileE reg1 expr1 (initState reg1 env1)).2.canon

/-- Example 2 expression (validation cell of Example 2):
(((p + q)) % r) + (((p * r) - (q + s)) % p) - ((s - r)) + (((s * q) + (q - r)) % 2). -/
def expr2 : Expr :=
  .binOp .add
    (.binOp .sub
      (.binOp .add
        (.binOp .mod (.binOp .add (.var "p") (.var "q")) (.var "r"))
        (.binOp .mod
          (.binOp .sub (.binOp .mul (.var "p") (.var "r")) (.binOp .add (.var "q") (.var "s")))
          (.var "p")))
      (.binOp .sub (.var "s") (.var "r")))
    (.binOp .mod
      (.binOp .add (.binOp .mul (.var "s") (.var "q")) (.binOp .sub (.var "q") (.var "r")))
      (.lit 2))

/-- Example 2 fixed value p = 1 and decoded best sample q = 7, r = 7, s = 3. -/
def env2 : String → Int :=
  fun x => if x = "p" then 1 else if x = "q" then 7 else if x = "r" then 7 else
    if x = "s" then 3 else 0

/-- Example 3 registry: N fixed to 35 with 6 qubits, d free with 3 qubits. -/
def reg3 : List VarInfo := [⟨"N", 6, some 35⟩, ⟨"d", 3, none⟩]

/-- A small state for exercising the Mod gadget directly: three allocated
bits holding d = 5. -/
def stMod : CState := ⟨3, [], [true, false, true]⟩

/-- Canonical assignment of the Mod gadget for 35 % d at d = 5. -/
def sigmaMod : Nat → Bool :=
  bitOf (modOp (.const 35) (.block [0, 1, 2]) stMod).2.canon

/-- Registry of the completeness counterexample: a single free 1-bit
variable. -/
def regCE : List VarInfo := [⟨"a", 1, none⟩]

/-- Counterexample expression (a - 1) + 1: over the integers it equals `a`,
but its compiled model clips the negative intermediate a - 1. -/
def exprCE : Expr := .binOp .add (.binOp .sub (.var "a") (.lit 1)) (.lit 1)

/-- The assembled model of the counterexample (target 0). -/
def modelCE : Model := compileModel regCE exprCE 0 (fun _ => 0)

/-- Registry and sample exercising the decoder: one free 3-bit variable and
one fixed variable. -/
def regDec : List VarInfo := [⟨"a", 3, none⟩, ⟨"c", 2, some 3⟩]

/-- A model wrapper for the decoder example. -/
def modelDec : Model := ⟨regDec, .const 0, [], 5⟩

/-- A concrete complete sample: bits 101... so a decodes to 5. -/
def sigmaDec : Nat → Bool := bitOf [true, false, true]

instance instDecEqExcept {ε α : Type} [DecidableEq ε] [DecidableEq α] :
    DecidableEq (Except ε α) := fun a b =>
  match a, b with
  | .error e, .error f =>
      if h : e = f then isTrue (congrArg Except.error h)
      else isFalse (fun hh => h (by cases hh; rfl))
  | .error _, .ok _ => isFalse (fun hh => Except.noConfusion hh)
  | .ok _, .error _ => isFalse (fun hh => Except.noConfusion hh)
  | .ok x, .ok y =>
      if h : x = y then isTrue (congrArg Except.ok h)
      else isFalse (fun hh => h (by cases hh; rfl))

/-! ### Basic lemmas about bits, decoding and linear forms -/

@[simp]
lemma b2n_cast (b : Bool) : ((b2n b : Nat) : Int) = b2i b := by
  cases b <;> simp [b2n, b2i]

lemma b2i_nonneg (b : Bool) : 0 ≤ b2i b := by cases b <;> simp [b2i]

lemma b2i_and (x y : Bool) : b2i (x && y) = b2i x * b2i y := by
  cases x <;> cases y <;> simp [b2i]

lemma decodeBits_lt (σ : Nat → Bool) : ∀ bs : List Nat, decodeBits σ bs < 2 ^ bs.length := by
  intro bs
  induction bs with
  | nil => simp [decodeBits]
  | cons i rest ih =>
      have hb : b2n (σ i) ≤ 1 := by cases σ i <;> simp [b2n]
      simp only [decodeBits, List.length_cons, pow_succ]
      omega

lemma decodeBits_cast_cons (σ : Nat → Bool) (i : Nat) (bs : List Nat) :
    ((decodeBits σ (i :: bs) : Nat) : Int) = b2i (σ i) + 2 * ((decodeBits σ bs : Nat) : Int) := by
  simp only [decodeBits, Nat.cast_add, Nat.cast_mul, Nat.cast_ofNat, b2n_cast]

lemma encodeNat_length : ∀ w v, (encodeNat w v).length = w := by
  intro w
  induction w with
  | zero => intro v; rfl
  | succ n ih => intro v; simp [encodeNat, ih]

lemma decode_encode : ∀ w v, v < 2 ^ w → decodeBools (encodeNat w v) = v := by
  intro w
  induction w with
  | zero => intro v hv; simp at hv; simp [encodeNat, decodeBools, hv]
  | succ n ih =>
      intro v hv
      have hdiv : v / 2 < 2 ^ n := by
        have : v < 2 ^ n * 2 := by rw [mul_comm, ← pow_succ']; exact hv
        omega
      have hmod : b2n (decide (v % 2 = 1)) = v % 2 := by
        rcases Nat.mod_two_eq_zero_or_one v with h | h <;> simp [h, b2n]
      simp only [encodeNat, decodeBools, hmod, ih (v / 2) hdiv]
      omega

lemma blockBits_length : ∀ w n, (blockBits n w).length = w := by
  intro w
  induction w with
  | zero => intro n; rfl
  | succ k ih => intro n; simp [blockBits, ih]

lemma blockBits_mem : ∀ w n i, i ∈ blockBits n w → n ≤ i ∧ i < n + w := by
  intro w
  induction w with
  | zero => intro n i h; simp [blockBits] at h
  | succ k ih =>
      intro n i h
      simp only [blockBits, List.mem_cons] at h
      rcases h with rfl | h
      · omega
      · have := ih (n + 1) i h
        omega

lemma bitOf_append_lt : ∀ (c d : List Bool) (i : Nat), i < c.length →
    bitOf (c ++ d) i = bitOf c i := by
  intro c
  induction c with
  | nil => intro d i hi; simp at hi
  | cons x cs ih =>
      intro d i hi
      cases i with
      | zero => rfl
      | succ j =>
          simp only [List.length_cons, Nat.succ_lt_succ_iff] at hi
          simpa [bitOf] using ih d j hi

lemma bitOf_append_add : ∀ (c d : List Bool) (i : Nat),
    bitOf (c ++ d) (c.length + i) = bitOf d i := by
  intro c
  induction c with
  | nil => intro d i; simp
  | cons x cs ih =>
      intro d i
      have hlen : (x :: cs).length + i = (cs.length + i) + 1 := by
        simp [List.length_cons]; omega
      rw [hlen]
      simpa [bitOf] using ih d i

lemma decode_stable (c d : List Bool) (bs : List Nat) (h : ∀ i ∈ bs, i < c.length) :
    decodeBits (bitOf (c ++ d)) bs = decodeBits (bitOf c) bs := by
  induction bs with
  | nil => rfl
  | cons i rest ih =>
      simp only [decodeBits]
      rw [bitOf_append_lt c d i (h i (by simp)), ih (fun j hj => h j (by simp [hj]))]

lemma decode_blockBits_ge : ∀ (w n : Nat) (c : List Bool), c.length ≤ n →
    decodeBits (bitOf c) (blockBits n w) = 0 := by
  intro w
  induction w with
  | zero => intro n c _; rfl
  | succ k ih =>
      intro n c hc
      have h0 : bitOf c n = false := by
        unfold bitOf
        exact List.getD_eq_default _ _ hc
      simp [blockBits, decodeBits, h0, b2n, ih (n + 1) c (by omega)]

lemma decode_blockBits : ∀ (d : List Bool) (w : Nat) (c : List Bool),
    decodeBits (bitOf (c ++ d)) (blockBits c.length w) = decodeBools (d.take w) := by
  intro d
  induction d with
  | nil =>
      intro w c
      simp only [List.append_nil, List.take_nil]
      cases w with
      | zero => rfl
      | succ k =>
          rw [decode_blockBits_ge (k + 1) c.length c (le_refl _)]
          rfl
  | cons x xs ih =>
      intro w c
      cases w with
      | zero => rfl
      | succ k =>
          have hx : bitOf (c ++ x :: xs) c.length = x := by
            have := bitOf_append_add c (x :: xs) 0
            simpa [bitOf] using this
          have hrest : decodeBits (bitOf (c ++ x :: xs)) (blockBits (c.length + 1) k)
              = decodeBools (xs.take k) := by
            have hassoc : c ++ x :: xs = (c ++ [x]) ++ xs := by simp
            have hlen : c.length + 1 = (c ++ [x]).length := by simp
            rw [hassoc, hlen, ih k (c ++ [x])]
          simp [blockBits, decodeBits, List.take_succ_cons, decodeBools, hx, hrest]

/-! ### Linear forms and the equality penalty -/

lemma lform_nil (σ : Nat → Bool) (c : Int) : lform σ [] c = c := by simp [lform]

lemma lform_cons (σ : Nat → Bool) (t : Int × Nat) (ts : List (Int × Nat)) (c : Int) :
    lform σ (t :: ts) c = t.1 * b2i (σ t.2) + lform σ ts c := by
  simp [lform]; ring

lemma lform_append (σ : Nat → Bool) (t1 t2 : List (Int × Nat)) (c1 c2 : Int) :
    lform σ (t1 ++ t2) (c1 + c2) = lform σ t1 c1 + lform σ t2 c2 := by
  simp [lform]; ring

lemma lform_neg_map (σ : Nat → Bool) (ts : List (Int × Nat)) :
    lform σ (ts.map (fun t => (-t.1, t.2))) 0 = -(lform σ ts 0) := by
  induction ts with
  | nil => simp [lform]
  | cons t rest ih =>
      simp only [List.map_cons, lform_cons, ih]
      ring

lemma lform_wTerms (σ : Nat → Bool) : ∀ (bs : List Nat) (s : Int),
    lform σ (wTerms s bs) 0 = s * ((decodeBits σ bs : Nat) : Int) := by
  intro bs
  induction bs with
  | nil => intro s; simp [wTerms, lform, decodeBits]
  | cons i rest ih =>
      intro s
      rw [wTerms, lform_cons, ih (2 * s), decodeBits_cast_cons]
      ring

lemma lform_opTerms (σ : Nat → Bool) (s : Int) (a : Operand) :
    lform σ (opTerms s a).1 (opTerms s a).2 = s * operandVal σ a := by
  cases a with
  | const n => simp [opTerms, lform, operandVal]
  | block bs => simpa [opTerms, operandVal] using lform_wTerms σ bs s

@[simp]
lemma partsVal_nil (σ : Nat → Bool) (c : Int) : partsVal σ [] c = c := by simp [partsVal]

@[simp]
lemma partsVal_cons (σ : Nat → Bool) (p : Int × Operand) (parts : List (Int × Operand)) (c : Int) :
    partsVal σ (p :: parts) c = p.1 * operandVal σ p.2 + partsVal σ parts c := by
  simp [partsVal]; ring

lemma lform_eqPen_fold (σ : Nat → Bool) :
    ∀ (parts : List (Int × Operand)) (ts0 : List (Int × Nat)) (c0 : Int),
    lform σ (parts.foldr (fun p acc => (opTerms p.1 p.2).1 ++ acc) ts0)
      (parts.foldr (fun p acc => (opTerms p.1 p.2).2 + acc) c0)
    = partsVal σ parts 0 + lform σ ts0 c0 := by
  intro parts
  induction parts with
  | nil => intro ts0 c0; simp
  | cons p rest ih =>
      intro ts0 c0
      simp only [List.foldr_cons]
      rw [lform_append σ (opTerms p.1 p.2).1 _ (opTerms p.1 p.2).2 _, lform_opTerms, ih]
      simp only [partsVal_cons]
      ring

lemma eqPen_val (σ : Nat → Bool) (parts : List (Int × Operand)) (c : Int) :
    penaltyVal σ (eqPen parts c) = (partsVal σ parts c) ^ 2 := by
  have h := lform_eqPen_fold σ parts [] c
  simp only [eqPen, penaltyVal, h, lform_nil]
  have : partsVal σ parts 0 + c = partsVal σ parts c := by simp [partsVal]; ring
  rw [this]

/-! ### Penalty values: nonnegativity and vanishing exactly on consistency -/

lemma andPenalty_cases (l r a : Bool) :
    (a = (l && r) ∧ andPenalty (b2i l) (b2i r) (b2i a) = 0) ∨
    (a ≠ (l && r) ∧ 0 < andPenalty (b2i l) (b2i r) (b2i a)) := by
  cases l <;> cases r <;> cases a <;> simp [andPenalty, b2i]

lemma penaltyVal_nonneg (σ : Nat → Bool) (p : Penalty) : 0 ≤ penaltyVal σ p := by
  cases p with
  | andGate l r a =>
      rcases andPenalty_cases (σ l) (σ r) (σ a) with ⟨_, h⟩ | ⟨_, h⟩
      · simp [penaltyVal, h]
      · exact le_of_lt h
  | linEq ts c => simpa [penaltyVal] using sq_nonneg (lform σ ts c)

lemma penaltyVal_eq_zero_iff (σ : Nat → Bool) (p : Penalty) :
    penaltyVal σ p = 0 ↔ Consistent σ p := by
  cases p with
  | andGate l r a =>
      simp only [penaltyVal, Consistent]
      rcases andPenalty_cases (σ l) (σ r) (σ a) with ⟨hc, h⟩ | ⟨hc, h⟩
      · exact ⟨fun _ => hc, fun _ => h⟩
      · constructor
        · intro h0
          rw [h0] at h
          exact absurd h (lt_irrefl 0)
        · intro h0
          exact absurd h0 hc
  | linEq ts c =>
      simp only [penaltyVal, Consistent]
      exact sq_eq_zero_iff

lemma sum_zero_of_nonneg : ∀ l : List Int, (∀ x ∈ l, 0 ≤ x) → l.sum = 0 → ∀ x ∈ l, x = 0 := by
  intro l
  induction l with
  | nil => intro _ _ x hx; simp at hx
  | cons y rest ih =>
      intro hnn hsum x hx
      have hy : 0 ≤ y := hnn y (by simp)
      have hrest : 0 ≤ rest.sum := List.sum_nonneg (fun z hz => hnn z (by simp [hz]))
      simp only [List.sum_cons] at hsum
      have hy0 : y = 0 := by omega
      have hr0 : rest.sum = 0 := by omega
      rcases List.mem_cons.mp hx with rfl | hx'
      · exact hy0
      · exact ih (fun z hz => hnn z (by simp [hz])) hr0 x hx'

lemma energy_nonneg (m : Model) (σ : Nat → Bool) : 0 ≤ energy m σ :=
  List.sum_nonneg (by
    intro x hx
    rcases List.mem_map.mp hx with ⟨p, _, rfl⟩
    exact penaltyVal_nonneg σ p)

lemma energy_zero_pens (m : Model) (σ : Nat → Bool) (h : energy m σ = 0) :
    PensZero σ m.pens := by
  intro p hp
  exact sum_zero_of_nonneg (m.pens.map (penaltyVal σ))
    (by
      intro x hx
      rcases List.mem_map.mp hx with ⟨q, _, rfl⟩
      exact penaltyVal_nonneg σ q)
    h (penaltyVal σ p) (List.mem_map.mpr ⟨p, hp, rfl⟩)

lemma energy_zero_of_pens (m : Model) (σ : Nat → Bool) (h : PensZero σ m.pens) :
    energy m σ = 0 := by
  unfold energy
  have : m.pens.map (penaltyVal σ) = m.pens.map (fun _ => (0 : Int)) := by
    apply List.map_congr_left
    intro p hp
    exact h p hp
  rw [this]
  simp

/-! ### Soundness: zero penalties force the gadget arithmetic -/

lemma pensZero_cons {σ : Nat → Bool} {p : Penalty} {ps : List Penalty} :
    PensZero σ (p :: ps) ↔ penaltyVal σ p = 0 ∧ PensZero σ ps := by
  unfold PensZero
  exact List.forall_mem_cons

lemma linEq_zero {σ : Nat → Bool} {ts : List (Int × Nat)} {c : Int}
    (h : penaltyVal σ (.linEq ts c) = 0) : lform σ ts c = 0 := by
  simpa [penaltyVal] using sq_eq_zero_iff.mp h

lemma eqPen_zero {σ : Nat → Bool} {parts : List (Int × Operand)} {c : Int}
    (h : penaltyVal σ (eqPen parts c) = 0) : partsVal σ parts c = 0 := by
  rw [eqPen_val] at h
  exact sq_eq_zero_iff.mp h

lemma addOp_sound (a b : Operand) (st : CState) (σ : Nat → Bool)
    (h : PensZero σ (addOp a b st).2.pens) :
    PensZero σ st.pens ∧
    operandVal σ (addOp a b st).1 = operandVal σ a + operandVal σ b := by
  simp only [addOp, emit, pushBlock] at h ⊢
  rw [pensZero_cons] at h
  refine ⟨h.2, ?_⟩
  have h0 := eqPen_zero h.1
  simp only [partsVal_cons, partsVal_nil] at h0
  linarith

lemma subOp_sound (a b : Operand) (st : CState) (σ : Nat → Bool)
    (h : PensZero σ (subOp a b st).2.pens) :
    PensZero σ st.pens ∧
    operandVal σ (subOp a b st).1 = operandVal σ a - operandVal σ b := by
  simp only [subOp, emit, pushBlock] at h ⊢
  rw [pensZero_cons] at h
  refine ⟨h.2, ?_⟩
  have h0 := eqPen_zero h.1
  simp only [partsVal_cons, partsVal_nil] at h0
  linarith

lemma mulRow_sound (l : Nat) : ∀ (lb : List Nat) (s : Int) (st : CState) (σ : Nat → Bool),
    PensZero σ (mulRow l lb s st).2.pens →
    PensZero σ st.pens ∧
    lform σ (mulRow l lb s st).1 0 = s * b2i (σ l) * ((decodeBits σ lb : Nat) : Int) := by
  intro lb
  induction lb with
  | nil =>
      intro s st σ h
      exact ⟨h, by simp [mulRow, lform, decodeBits]⟩
  | cons r rest ih =>
      intro s st σ h
      simp only [mulRow] at h ⊢
      have hih := ih (2 * s) _ σ h
      have h1 : PensZero σ (emit (.andGate l r st.nextBit) (pushBit (bitOf st.canon l && bitOf st.canon r) st)).pens := hih.1
      simp only [emit, pushBit] at h1
      rw [pensZero_cons] at h1
      have hand : σ st.nextBit = (σ l && σ r) := by
        have := (penaltyVal_eq_zero_iff σ (.andGate l r st.nextBit)).mp h1.1
        exact this
      refine ⟨h1.2, ?_⟩
      rw [lform_cons, hih.2, decodeBits_cast_cons]
      simp only [hand, b2i_and]
      ring

lemma mulRows_sound : ∀ (la lb : List Nat) (s : Int) (st : CState) (σ : Nat → Bool),
    PensZero σ (mulRows la lb s st).2.pens →
    PensZero σ st.pens ∧
    lform σ (mulRows la lb s st).1 0
      = s * ((decodeBits σ la : Nat) : Int) * ((decodeBits σ lb : Nat) : Int) := by
  intro la
  induction la with
  | nil =>
      intro lb s st σ h
      exact ⟨h, by simp [mulRows, lform, decodeBits]⟩
  | cons l ls ih =>
      intro lb s st σ h
      simp only [mulRows] at h ⊢
      have hih := ih lb (2 * s) _ σ h
      have hrow := mulRow_sound l lb s st σ hih.1
      refine ⟨hrow.1, ?_⟩
      have happ := lform_append σ (mulRow l lb s st).1 (mulRows ls lb (2 * s) (mulRow l lb s st).2).1 0 0
      rw [show (0 : Int) + 0 = 0 by ring] at happ
      rw [happ, hrow.2, hih.2, decodeBits_cast_cons]
      ring

lemma mulOp_sound (a b : Operand) (st : CState) (σ : Nat → Bool)
    (h : PensZero σ (mulOp a b st).2.pens) :
    PensZero σ st.pens ∧
    operandVal σ (mulOp a b st).1 = operandVal σ a * operandVal σ b := by
  cases a with
  | const m =>
      simp only [mulOp, emit, pushBlock] at h ⊢
      rw [pensZero_cons] at h
      refine ⟨h.2, ?_⟩
      have h0 := eqPen_zero h.1
      simp only [partsVal_cons, partsVal_nil] at h0
      simp only [operandVal] at h0 ⊢
      linarith
  | block la =>
      cases b with
      | const n =>
          simp only [mulOp, emit, pushBlock] at h ⊢
          rw [pensZero_cons] at h
          refine ⟨h.2, ?_⟩
          have h0 := eqPen_zero h.1
          simp only [partsVal_cons, partsVal_nil] at h0
          simp only [operandVal] at h0 ⊢
          linarith
      | block lb =>
          simp only [mulOp, emit, pushBlock] at h ⊢
          rw [pensZero_cons] at h
          have hrows := mulRows_sound la lb 1 st σ h.2
          refine ⟨hrows.1, ?_⟩
          have h0 := linEq_zero h.1
          have happ := lform_append σ (wTerms 1 (blockBits (mulRows la lb 1 st).2.nextBit (la.length + lb.length)))
            ((mulRows la lb 1 st).1.map (fun t => (-t.1, t.2))) 0 0
          rw [show (0 : Int) + 0 = 0 by ring] at happ
          rw [happ, lform_wTerms, lform_neg_map, hrows.2] at h0
          simp only [operandVal]
          linarith

lemma fmod_unique {a b q r : Int} (hb : 0 < b) (h : a = q * b + r) (h0 : 0 ≤ r)
    (h1 : r < b) : r = Int.fmod a b := by
  rw [Int.fmod_eq_emod a (le_of_lt hb), h]
  have hc : q * b + r = r + b * q := by ring
  rw [hc, Int.add_mul_emod_self_left, Int.emod_eq_of_lt h0 h1]

lemma modOp_zero_inv (a b : Operand) (st : CState) (σ : Nat → Bool)
    (h : PensZero σ (modOp a b st).2.pens) :
    PensZero σ st.pens ∧
    0 < operandVal σ b ∧
    ∃ q rem : Int,
      operandVal σ a = q * operandVal σ b + rem ∧ 0 ≤ rem ∧
      rem < operandVal σ b ∧ operandVal σ (modOp a b st).1 = rem := by
  simp only [modOp, emit, pushBlock] at h ⊢
  rw [pensZero_cons] at h
  obtain ⟨hcomp, h⟩ := h
  rw [pensZero_cons] at h
  obtain ⟨hmain, h⟩ := h
  have hmul := mulOp_sound _ b _ σ h
  have hst : PensZero σ st.pens := hmul.1
  have hcomp0 := eqPen_zero hcomp
  have hmain0 := eqPen_zero hmain
  simp only [partsVal_cons, partsVal_nil] at hcomp0 hmain0
  rw [hmul.2] at hmain0
  set vq := operandVal σ (Operand.block (blockBits st.nextBit (opWidth a))) with hvq
  set vrem := operandVal σ (Operand.block (blockBits (st.nextBit + opWidth a) (opWidth b))) with hvrem
  have hrem_nonneg : 0 ≤ vrem := by
    rw [hvrem]
    simp only [operandVal]
    exact Int.ofNat_nonneg _
  have hslack : 0 ≤ operandVal σ (Operand.block (blockBits
      ((modOp a b st).2.nextBit - opWidth b) (opWidth b))) := by
    simp only [operandVal]
    exact Int.ofNat_nonneg _
  refine ⟨hst, ?_, vq, vrem, ?_, hrem_nonneg, ?_, ?_⟩
  · -- 0 < R from the comparator penalty: rem + slack + 1 = R
    have hsl : 0 ≤ operandVal σ (Operand.block (blockBits (mulOp (Operand.block (blockBits st.nextBit (opWidth a))) b
        ⟨st.nextBit + opWidth a + opWidth b, st.pens,
          (st.canon ++ encodeNat (opWidth a) (if opCanon st b = 0 then 0 else Int.fdiv (opCanon st a) (opCanon st b)).toNat)
            ++ encodeNat (opWidth b) (if opCanon st b = 0 then 0 else Int.fmod (opCanon st a) (opCanon st b)).toNat⟩).2.nextBit
        (opWidth b))) := by
      simp only [operandVal]
      exact Int.ofNat_nonneg _
    linarith
  · linarith
  · -- rem < R from the comparator penalty
    have hsl : 0 ≤ operandVal σ (Operand.block (blockBits (mulOp (Operand.block (blockBits st.nextBit (opWidth a))) b
        ⟨st.nextBit + opWidth a + opWidth b, st.pens,
          (st.canon ++ encodeNat (opWidth a) (if opCanon st b = 0 then 0 else Int.fdiv (opCanon st a) (opCanon st b)).toNat)
            ++ encodeNat (opWidth b) (if opCanon st b = 0 then 0 else Int.fmod (opCanon st a) (opCanon st b)).toNat⟩).2.nextBit
        (opWidth b))) := by
      simp only [operandVal]
      exact Int.ofNat_nonneg _
    linarith
  · rfl

lemma compileE_sound (reg : List VarInfo) (e : Expr) : ∀ (st : CState) (σ : Nat → Bool),
    PensZero σ (compileE reg e st).2.pens →
    PensZero σ st.pens ∧
    evalExpr (envOf reg σ) e = some (operandVal σ (compileE reg e st).1) := by
  induction e with
  | lit n =>
      intro st σ h
      exact ⟨h, rfl⟩
  | var x =>
      intro st σ h
      refine ⟨h, ?_⟩
      simp only [compileE, evalExpr, envOf]
      cases hf : findVar reg x 0 with
      | none => simp [operandVal]
      | some oi =>
          cases hfix : oi.2.fixedVal with
          | some v => simp [operandVal, hfix]
          | none => simp [operandVal, hfix]
  | binOp o l r ihl ihr =>
      intro st σ h
      simp only [compileE] at h ⊢
      cases o with
      | add =>
          have hop := addOp_sound _ _ _ σ h
          have hr := ihr _ σ hop.1
          have hl := ihl _ σ hr.1
          refine ⟨hl.1, ?_⟩
          simp only [evalExpr, hl.2, hr.2, applyOp, hop.2]
      | sub =>
          have hop := subOp_sound _ _ _ σ h
          have hr := ihr _ σ hop.1
          have hl := ihl _ σ hr.1
          refine ⟨hl.1, ?_⟩
          simp only [evalExpr, hl.2, hr.2, applyOp, hop.2]
      | mul =>
          have hop := mulOp_sound _ _ _ σ h
          have hr := ihr _ σ hop.1
          have hl := ihl _ σ hr.1
          refine ⟨hl.1, ?_⟩
          simp only [evalExpr, hl.2, hr.2, applyOp, hop.2]
      | mod =>
          have hop := modOp_zero_inv _ _ _ σ h
          have hr := ihr _ σ hop.1
          have hl := ihl _ σ hr.1
          refine ⟨hl.1, ?_⟩
          obtain ⟨hpos, q, rem, heq, h0, hlt, hval⟩ := hop.2
          have hne : operandVal σ (compileE reg r (compileE reg l st).2).1 ≠ 0 :=
            ne_of_gt hpos
          simp only [evalExpr, hl.2, hr.2, applyOp, if_neg hne, hval]
          rw [fmod_unique hpos heq h0 hlt]

lemma assembled_pens (reg : List VarInfo) (e : Expr) (t : Int) (env : String → Nat) :
    (compileModel reg e t env).pens
      = eqPen [(1, (compileE reg e (initState reg env)).1)] (-t)
        :: (compileE reg e (initState reg env)).2.pens := rfl

lemma assembled_sound (reg : List VarInfo) (e : Expr) (t : Int) (env : String → Nat)
    (σ : Nat → Bool) (h : energy (compileModel reg e t env) σ = 0) :
    evalExpr (envOf reg σ) e = some t := by
  have hz := energy_zero_pens _ σ h
  rw [assembled_pens, pensZero_cons] at hz
  have hroot := eqPen_zero hz.1
  simp only [partsVal_cons, partsVal_nil] at hroot
  have hs := compileE_sound reg e (initState reg env) σ hz.2
  rw [hs.2]
  congr 1
  linarith

/-! ### Decoder lemmas -/

lemma decodeVars_names (σ : Nat → Bool) : ∀ (vs : List VarInfo) (off : Nat),
    (decodeVars σ vs off).map Prod.fst
      = (vs.filter (fun v => v.fixedVal == none)).map VarInfo.name := by
  intro vs
  induction vs with
  | nil => intro off; rfl
  | cons v rest ih =>
      intro off
      cases hfix : v.fixedVal with
      | some n => simp [decodeVars, hfix, List.filter_cons, ih]
      | none => simp [decodeVars, hfix, List.filter_cons, ih]

lemma decodeVars_lookup (σ : Nat → Bool) : ∀ (vs : List VarInfo) (x : String) (off : Nat)
    (oi : Nat × VarInfo), findVar vs x off = some oi → oi.2.fixedVal = none →
    List.lookup x (decodeVars σ vs off)
      = some (decodeBits σ (blockBits oi.1 oi.2.width)) := by
  intro vs
  induction vs with
  | nil => intro x off oi h; simp [findVar] at h
  | cons v rest ih =>
      intro x off oi h hfree
      by_cases hname : v.name = x
      · rw [findVar, if_pos hname] at h
        have hoi : oi = (off, v) := by
          cases h
          rfl
        subst hoi
        simp only at hfree
        simp [decodeVars, hfree, List.lookup, hname]
      · rw [findVar, if_neg hname] at h
        cases hfix : v.fixedVal with
        | some n =>
            simp only [decodeVars, hfix]
            exact ih x (off + v.width) oi h hfree
        | none =>
            simp only [decodeVars, hfix]
            rw [List.lookup]
            have hbe : (x == v.name) = false := by
              simp
              exact fun hh => hname hh.symm
            rw [hbe]
            exact ih x (off + v.width) oi h hfree

/-! ### Claim theorems (part 1) -/

/-- C4: encoding any value V with 0 ≤ V < 2^W into its W-bit unsigned binary
expansion and decoding by the sum of bit_i * 2^i recovers exactly V, for
every width W in [1, 8]. -/
theorem c4_encode_roundtrip : ∀ w : Nat, 1 ≤ w → w ≤ 8 → ∀ v : Nat, v < 2 ^ w →
    decodeBools (encodeNat w v) = v := by
  intro w _ _ v hv
  exact decode_encode w v hv

/-- Witness for C4 at W = 3, V = 5. -/
theorem c4_encode_roundtrip_witness :
    1 ≤ 3 ∧ 3 ≤ 8 ∧ 5 < 2 ^ 3 ∧ decodeBools (encodeNat 3 5) = 5 :=
  ⟨by decide, by decide, by decide, c4_encode_roundtrip 3 (by decide) (by decide) 5 (by decide)⟩

/-- C5: the multiplication gadget's AND penalty l*r - 2*l*aux - 2*r*aux + 3*aux
is zero exactly when aux = l AND r and strictly positive on every other of
the eight bit combinations. -/
theorem c5_and_penalty : ∀ l r aux : Bool,
    (andPenalty (b2i l) (b2i r) (b2i aux) = 0 ↔ aux = (l && r)) ∧
    (andPenalty (b2i l) (b2i r) (b2i aux) = 0 ∨
      0 < andPenalty (b2i l) (b2i r) (b2i aux)) := by
  decide

/-- C2: every penalty term of an assembled model is nonnegative at every bit
assignment, and vanishes exactly on the assignments consistent with the
gadget's internal constraint. -/
theorem c2_gadget_penalties : ∀ (reg : List VarInfo) (e : Expr) (t : Int) (m : Model),
    assemble reg e t = Except.ok m →
    ∀ p ∈ m.pens, ∀ σ : Nat → Bool,
      0 ≤ penaltyVal σ p ∧ (penaltyVal σ p = 0 ↔ Consistent σ p) := by
  intro reg e t m _ p _ σ
  exact ⟨penaltyVal_nonneg σ p, penaltyVal_eq_zero_iff σ p⟩

/-- Witness for C2 on the model of the trivial expression 0 = 0. -/
theorem c2_gadget_penalties_witness :
    0 ≤ penaltyVal (fun _ => false) (eqPen [(1, Operand.const 0)] (-0)) ∧
    (penaltyVal (fun _ => false) (eqPen [(1, Operand.const 0)] (-0)) = 0 ↔
      Consistent (fun _ => false) (eqPen [(1, Operand.const 0)] (-0))) :=
  c2_gadget_penalties [] (.lit 0) 0 (compileModel [] (.lit 0) 0 (fun _ => 0)) rfl
    (eqPen [(1, Operand.const 0)] (-0)) (by decide) (fun _ => false)

/-- C10 (code bug): re-evaluating Example 2's validation expression at the
notebook's recorded best sample p = 1, q = 7, r = 7, s = 3 yields 6, not the
0 that the notebook's stored output shows. -/
theorem c10_example2_eval :
    evalExpr env2 expr2 = some 6 ∧ ¬ evalExpr env2 expr2 = some 0 := by
  decide

/-- C8 counterexample: when the name is already declared and the width is
also invalid, `declare` reports DuplicateVariable, so it does not fail with
InvalidWidth although width ≤ 0 — the two "exactly when" conditions of the
claim cannot both hold on the overlap. -/
theorem c8_counterexample :
    (0 : Int) ≤ 0 ∧
    declare [⟨"a", 1, none⟩] "a" 0 = Except.error CErr.DuplicateVariable ∧
    ¬ declare [⟨"a", 1, none⟩] "a" 0 = Except.error CErr.InvalidWidth := by
  decide

/-- C8 amended: `declare` fails with DuplicateVariable exactly when the name
is already declared, fails with InvalidWidth exactly when the name is fresh
and width ≤ 0 (the duplicate check is made first), and succeeds otherwise;
`markFixed` fails with UnknownVariable exactly when the name is not declared,
with ValueOutOfRange exactly when it is declared and the value does not fit
the declared width, and succeeds otherwise. -/
theorem c8_amended : ∀ (reg : List VarInfo) (x : String) (w : Int) (v : Nat),
    (declare reg x w = Except.error CErr.DuplicateVariable ↔
      (lookupVar reg x).isSome = true) ∧
    (declare reg x w = Except.error CErr.InvalidWidth ↔
      ((lookupVar reg x).isSome = false ∧ w ≤ 0)) ∧
    ((∃ r, declare reg x w = Except.ok r) ↔
      ((lookupVar reg x).isSome = false ∧ 0 < w)) ∧
    (markFixed reg x v = Except.error CErr.UnknownVariable ↔ lookupVar reg x = none) ∧
    (markFixed reg x v = Except.error CErr.ValueOutOfRange ↔
      (∃ info, lookupVar reg x = some info ∧ 2 ^ info.width ≤ v)) ∧
    ((∃ r, markFixed reg x v = Except.ok r) ↔
      (∃ info, lookupVar reg x = some info ∧ v < 2 ^ info.width)) := by
  intro reg x w v
  refine ⟨?_, ?_, ?_, ?_, ?_, ?_⟩
  · unfold declare
    by_cases h1 : ((lookupVar reg x).isSome = true)
    · simp [h1]
    · by_cases h2 : w ≤ 0 <;> simp [h1, h2]
  · unfold declare
    by_cases h1 : ((lookupVar reg x).isSome = true)
    · simp [h1]
    · by_cases h2 : w ≤ 0 <;> simp [h1, h2]
  · unfold declare
    by_cases h1 : ((lookupVar reg x).isSome = true)
    · simp [h1]
    · by_cases h2 : w ≤ 0
      · simp [h1, h2]
      · simp [h1, h2]
        omega
  · unfold markFixed
    cases hl : lookupVar reg x with
    | none => simp
    | some info =>
        by_cases h1 : 2 ^ info.width ≤ v <;> simp [h1]
  · unfold markFixed
    cases hl : lookupVar reg x with
    | none => simp
    | some info =>
        by_cases h1 : 2 ^ info.width ≤ v <;> simp [h1]
  · unfold markFixed
    cases hl : lookupVar reg x with
    | none => simp
    | some info =>
        by_cases h1 : 2 ^ info.width ≤ v <;> simp [h1] <;> omega

/-- C9: compiling an expression that references an undeclared variable fails
with UnknownVariable; no model (hence no bit allocation) is produced, and —
the core being purely functional — the registry and expression passed in are
untouched and remain usable. -/
theorem c9_unknown_variable : ∀ (reg : List VarInfo) (e : Expr) (t : Int) (x : String),
    x ∈ varsOf e → findVar reg x 0 = none →
    assemble reg e t = Except.error CErr.UnknownVariable := by
  intro reg e t x hx hf
  unfold assemble checkVars
  have hall : ((varsOf e).all (fun y => (findVar reg y 0).isSome)) = false := by
    rw [List.all_eq_false]
    exact ⟨x, hx, by simp [hf]⟩
  rw [hall]
  rfl

/-- Witness for C9: a reference to the undeclared variable z. -/
theorem c9_unknown_variable_witness :
    assemble [] (Expr.var "z") 0 = Except.error CErr.UnknownVariable :=
  c9_unknown_variable [] (Expr.var "z") 0 "z" (by decide) rfl

/-- C7: the decoder maps each input sample to exactly one decoded sample in
the original input order (no sorting, selection, or filtering); each decoded
mapping lists exactly the Free variables (Fixed variables are omitted), and
every Free variable is mapped to the sum of bit_i * 2^i over its allocated
bits. -/
theorem c7_decoder : ∀ (m : Model) (ss : List ((Nat → Bool) × Int)),
    (DecodeSolution m ss).length = ss.length ∧
    (∀ i, i < ss.length →
      (DecodeSolution m ss).getD i ⟨[], 0⟩
        = ⟨decodeVars (ss.getD i (fun _ => false, 0)).1 m.reg 0,
            (ss.getD i (fun _ => false, 0)).2⟩) ∧
    (∀ σ : Nat → Bool, ∀ off : Nat,
      ((decodeVars σ m.reg off).map Prod.fst)
        = (m.reg.filter (fun v => v.fixedVal == none)).map VarInfo.name) ∧
    (∀ (σ : Nat → Bool) (x : String) (oi : Nat × VarInfo),
      findVar m.reg x 0 = some oi → oi.2.fixedVal = none →
      List.lookup x (decodeVars σ m.reg 0)
        = some (decodeBits σ (blockBits oi.1 oi.2.width))) := by
  intro m ss
  refine ⟨by simp [DecodeSolution], ?_, ?_, ?_⟩
  · intro i hi
    rw [List.getD_eq_getElem?_getD, List.getD_eq_getElem?_getD]
    unfold DecodeSolution
    rw [List.getElem?_map]
    cases hss : ss[i]? with
    | none =>
        rw [List.getElem?_eq_none_iff] at hss
        omega
    | some s => simp
  · intro σ off
    exact decodeVars_names σ m.reg off
  · intro σ x oi h hfree
    exact decodeVars_lookup σ m.reg x 0 oi h hfree

/-- Witness for C7: a single complete sample over a registry with one free
and one fixed variable; the free variable decodes to 5, the fixed one is
omitted. -/
theorem c7_decoder_witness :
    (DecodeSolution modelDec [(sigmaDec, 7)]).getD 0 ⟨[], 0⟩
      = ⟨[("a", 5)], 7⟩ := by
  have h := (c7_decoder modelDec [(sigmaDec, 7)]).2.1 0 (by decide)
  rw [h]
  decide

/-- C6: at every bit assignment on which all penalties of a Mod(L, R) gadget
vanish, the decoded quotient and remainder satisfy L = Q*R + Rem with
0 ≤ Rem < R, the gadget's result operand equals Rem, and consequently R ≥ 1
(a free modulus variable cannot be 0 in a zero-penalty state). -/
theorem c6_mod_gadget : ∀ (a b : Operand) (st : CState) (σ : Nat → Bool),
    PensZero σ (modOp a b st).2.pens →
    1 ≤ operandVal σ b ∧
    ∃ q rem : Int,
      operandVal σ a = q * operandVal σ b + rem ∧ 0 ≤ rem ∧
      rem < operandVal σ b ∧ operandVal σ (modOp a b st).1 = rem := by
  intro a b st σ h
  have hi := modOp_zero_inv a b st σ h
  exact ⟨hi.2.1, hi.2.2⟩

/-- Witness for C6: the Mod gadget of 35 % d over a 3-bit block holding
d = 5, at its canonical zero-penalty assignment. -/
theorem c6_mod_gadget_witness :
    PensZero sigmaMod (modOp (Operand.const 35) (Operand.block [0, 1, 2]) stMod).2.pens ∧
    (1 ≤ operandVal sigmaMod (Operand.block [0, 1, 2]) ∧
      ∃ q rem : Int,
        operandVal sigmaMod (Operand.const 35)
          = q * operandVal sigmaMod (Operand.block [0, 1, 2]) + rem ∧ 0 ≤ rem ∧
        rem < operandVal sigmaMod (Operand.block [0, 1, 2]) ∧
        operandVal sigmaMod (modOp (Operand.const 35) (Operand.block [0, 1, 2]) stMod).1
          = rem) := by
  have hpz : PensZero sigmaMod (modOp (Operand.const 35) (Operand.block [0, 1, 2]) stMod).2.pens := by
    unfold PensZero
    decide
  exact ⟨hpz, c6_mod_gadget (Operand.const 35) (Operand.block [0, 1, 2]) stMod sigmaMod hpz⟩

/-- C3: for the compiled model of ((a * b) + c) % d = 0 with a, b, d free
3-bit variables and c fixed to 6, the sample a = 7, b = 7, d = 5 evaluates
(7*7+6) % 5 to 0, and its canonical bit assignment is a zero-energy ground
state: it has energy 0 while every bit assignment has energy at least 0. -/
theorem c3_example1 :
    assemble reg1 expr1 0 = Except.ok model1 ∧
    evalExpr (fullEnv reg1 env1) expr1 = some 0 ∧
    energy model1 sigma1 = 0 ∧
    ∀ σ : Nat → Bool, 0 ≤ energy model1 σ := by
  refine ⟨rfl, by decide, by decide, fun σ => energy_nonneg model1 σ⟩

/-! ### Completeness machinery: bounds, stability, fresh blocks -/

lemma bitLenAux_lt : ∀ (fuel n : Nat), n ≤ fuel → n < 2 ^ bitLenAux fuel n := by
  intro fuel
  induction fuel with
  | zero =>
      intro n h
      have : n = 0 := by omega
      simp [bitLenAux, this]
  | succ f ih =>
      intro n h
      by_cases h0 : n = 0
      · simp [bitLenAux, h0]
      · rw [bitLenAux, if_neg h0, pow_succ]
        have h2 := ih (n / 2) (by omega)
        omega

lemma bitLen_lt (n : Nat) : n < 2 ^ bitLen n := bitLenAux_lt n n (le_refl n)

lemma opVal_lt (σ : Nat → Bool) (a : Operand) (h : 0 ≤ operandVal σ a) :
    operandVal σ a < 2 ^ opWidth a := by
  cases a with
  | const n =>
      simp only [operandVal] at h
      simp only [operandVal, opWidth]
      rw [← Int.toNat_of_nonneg h]
      exact_mod_cast bitLen_lt n.toNat
  | block bs =>
      simp only [operandVal, opWidth]
      exact_mod_cast decodeBits_lt σ bs

lemma opVal_block_nonneg (σ : Nat → Bool) (bs : List Nat) :
    0 ≤ operandVal σ (.block bs) := Int.ofNat_nonneg _

lemma decode_ext (σ τ : Nat → Bool) (n : Nat) (h : ∀ i, i < n → σ i = τ i) :
    ∀ bs : List Nat, (∀ i ∈ bs, i < n) → decodeBits σ bs = decodeBits τ bs := by
  intro bs
  induction bs with
  | nil => intro _; rfl
  | cons i rest ih =>
      intro hb
      simp only [decodeBits]
      rw [h i (hb i (by simp)), ih (fun j hj => hb j (by simp [hj]))]

lemma lform_ext (σ τ : Nat → Bool) (n : Nat) (h : ∀ i, i < n → σ i = τ i) :
    ∀ (ts : List (Int × Nat)) (c : Int), (∀ t ∈ ts, t.2 < n) →
    lform σ ts c = lform τ ts c := by
  intro ts
  induction ts with
  | nil => intro c _; simp [lform]
  | cons t rest ih =>
      intro c hb
      rw [lform_cons, lform_cons, h t.2 (hb t (by simp)),
        ih c (fun u hu => hb u (by simp [hu]))]

lemma penaltyVal_ext (σ τ : Nat → Bool) (n : Nat) (p : Penalty) (hp : PBelow n p)
    (h : ∀ i, i < n → σ i = τ i) : penaltyVal σ p = penaltyVal τ p := by
  cases p with
  | andGate l r aux =>
      obtain ⟨h1, h2, h3⟩ := hp
      simp only [penaltyVal, h l h1, h r h2, h aux h3]
  | linEq ts c =>
      simp only [penaltyVal]
      rw [lform_ext σ τ n h ts c hp]

lemma operandVal_ext (σ τ : Nat → Bool) (n : Nat) (a : Operand) (ha : OpBelow n a)
    (h : ∀ i, i < n → σ i = τ i) : operandVal σ a = operandVal τ a := by
  cases a with
  | const m => rfl
  | block bs =>
      simp only [operandVal]
      rw [decode_ext σ τ n h bs ha]

lemma OpBelow_mono {n m : Nat} {a : Operand} (h : OpBelow n a) (hm : n ≤ m) :
    OpBelow m a := by
  cases a with
  | const k => trivial
  | block bs => exact fun i hi => lt_of_lt_of_le (h i hi) hm

lemma PBelow_mono {n m : Nat} {p : Penalty} (h : PBelow n p) (hm : n ≤ m) :
    PBelow m p := by
  cases p with
  | andGate l r aux =>
      obtain ⟨h1, h2, h3⟩ := h
      exact ⟨by omega, by omega, by omega⟩
  | linEq ts c => exact fun t ht => lt_of_lt_of_le (h t ht) hm

lemma operandVal_stable (c ext : List Bool) (a : Operand) (n : Nat) (ha : OpBelow n a)
    (hn : n ≤ c.length) : operandVal (bitOf (c ++ ext)) a = operandVal (bitOf c) a :=
  operandVal_ext _ _ c.length a (OpBelow_mono ha hn)
    (fun i hi => bitOf_append_lt c ext i hi)

lemma penaltyVal_stable (c ext : List Bool) (p : Penalty) (n : Nat) (hp : PBelow n p)
    (hn : n ≤ c.length) : penaltyVal (bitOf (c ++ ext)) p = penaltyVal (bitOf c) p :=
  penaltyVal_ext _ _ c.length p (PBelow_mono hp hn)
    (fun i hi => bitOf_append_lt c ext i hi)

lemma pensZero_stable (c ext : List Bool) (ps : List Penalty) (n : Nat)
    (hb : ∀ p ∈ ps, PBelow n p) (hn : n ≤ c.length)
    (hz : PensZero (bitOf c) ps) : PensZero (bitOf (c ++ ext)) ps := by
  intro p hp
  rw [penaltyVal_stable c ext p n (hb p hp) hn]
  exact hz p hp

lemma wTerms_below : ∀ (bs : List Nat) (s : Int) (n : Nat), (∀ i ∈ bs, i < n) →
    ∀ t ∈ wTerms s bs, t.2 < n := by
  intro bs
  induction bs with
  | nil => intro s n _ t ht; simp [wTerms] at ht
  | cons b rest ih =>
      intro s n hb t ht
      simp only [wTerms, List.mem_cons] at ht
      rcases ht with rfl | ht
      · exact hb b (by simp)
      · exact ih (2 * s) n (fun i hi => hb i (by simp [hi])) t ht

lemma opTerms_below (s : Int) (a : Operand) (n : Nat) (h : OpBelow n a) :
    ∀ t ∈ (opTerms s a).1, t.2 < n := by
  cases a with
  | const m => intro t ht; simp [opTerms] at ht
  | block bs => exact wTerms_below bs s n h

lemma eqPen_below (parts : List (Int × Operand)) (c : Int) (n : Nat)
    (h : ∀ p ∈ parts, OpBelow n p.2) : PBelow n (eqPen parts c) := by
  unfold eqPen PBelow
  induction parts with
  | nil => intro t ht; simp at ht
  | cons p rest ih =>
      intro t ht
      simp only [List.foldr_cons, List.mem_append] at ht
      rcases ht with ht | ht
      · exact opTerms_below p.1 p.2 n (h p (by simp)) t ht
      · exact ih (fun q hq => h q (by simp [hq])) t ht

lemma blockBits_below (m w : Nat) : OpBelow (m + w) (.block (blockBits m w)) :=
  fun i hi => (blockBits_mem w m i hi).2

lemma decode_fresh (c : List Bool) (w u : Nat) (hu : u < 2 ^ w) :
    decodeBits (bitOf (c ++ encodeNat w u)) (blockBits c.length w) = u := by
  rw [decode_blockBits]
  have ht : List.take w (encodeNat w u) = encodeNat w u :=
    List.take_of_length_le (by rw [encodeNat_length])
  rw [ht, decode_encode w u hu]

lemma decode_fresh_int (c : List Bool) (w : Nat) (v : Int) (h0 : 0 ≤ v)
    (hv : v < 2 ^ w) :
    ((decodeBits (bitOf (c ++ encodeNat w v.toNat)) (blockBits c.length w) : Nat) : Int)
      = v := by
  have hlt : v.toNat < 2 ^ w := by
    rw [Int.toNat_lt h0]
    exact_mod_cast hv
  rw [decode_fresh c w v.toNat hlt, Int.toNat_of_nonneg h0]

lemma two_pow_add_le (x y : Nat) : (2 : Int) ^ x + 2 ^ y ≤ 2 ^ (max x y + 1) := by
  have hx : (2 : Int) ^ x ≤ 2 ^ max x y :=
    pow_le_pow_right₀ (by norm_num) (le_max_left x y)
  have hy : (2 : Int) ^ y ≤ 2 ^ max x y :=
    pow_le_pow_right₀ (by norm_num) (le_max_right x y)
  rw [pow_succ]
  linarith

lemma mul_lt_two_pow (va vb : Int) (x y : Nat) (h0a : 0 ≤ va) (h0b : 0 ≤ vb)
    (ha : va < 2 ^ x) (hb : vb < 2 ^ y) : va * vb < 2 ^ (x + y) := by
  rw [pow_add]
  exact mul_lt_mul'' ha hb h0a h0b

/-! ### Completeness machinery: one allocation or emission at a time -/

lemma pushBlock_ok (st : CState) (w : Nat) (u : Int)
    (hwf : WFC st) (hz : PensZero (bitOf st.canon) st.pens)
    (h0u : 0 ≤ u) (hu : u < 2 ^ w) :
    WFC (pushBlock w u st) ∧
    (pushBlock w u st).nextBit = st.nextBit + w ∧
    (pushBlock w u st).canon = st.canon ++ encodeNat w u.toNat ∧
    (pushBlock w u st).pens = st.pens ∧
    PensZero (bitOf (pushBlock w u st).canon) (pushBlock w u st).pens ∧
    operandVal (bitOf (pushBlock w u st).canon) (.block (blockBits st.nextBit w)) = u := by
  have hlen := hwf.1
  refine ⟨⟨?_, ?_⟩, rfl, rfl, rfl, ?_, ?_⟩
  · simp [pushBlock, encodeNat_length, hlen]
  · intro p hp
    exact PBelow_mono (hwf.2 p hp) (by simp [pushBlock])
  · exact pensZero_stable st.canon _ st.pens st.nextBit hwf.2 hlen.ge hz
  · simp only [pushBlock, operandVal]
    rw [← hlen]
    exact decode_fresh_int st.canon w u h0u hu

lemma pushBit_ok (st : CState) (v : Bool)
    (hwf : WFC st) (hz : PensZero (bitOf st.canon) st.pens) :
    WFC (pushBit v st) ∧
    (pushBit v st).nextBit = st.nextBit + 1 ∧
    (pushBit v st).canon = st.canon ++ [v] ∧
    (pushBit v st).pens = st.pens ∧
    PensZero (bitOf (pushBit v st).canon) (pushBit v st).pens ∧
    bitOf (pushBit v st).canon st.nextBit = v := by
  have hlen := hwf.1
  refine ⟨⟨?_, ?_⟩, rfl, rfl, rfl, ?_, ?_⟩
  · simp [pushBit, hlen]
  · intro p hp
    exact PBelow_mono (hwf.2 p hp) (by simp [pushBit])
  · exact pensZero_stable st.canon _ st.pens st.nextBit hwf.2 hlen.ge hz
  · simp only [pushBit]
    rw [← hlen]
    have := bitOf_append_add st.canon [v] 0
    simpa [bitOf] using this

lemma emit_pen_ok (st : CState) (p : Penalty)
    (hwf : WFC st) (hz : PensZero (bitOf st.canon) st.pens)
    (hb : PBelow st.nextBit p) (hv : penaltyVal (bitOf st.canon) p = 0) :
    WFC (emit p st) ∧ (emit p st).nextBit = st.nextBit ∧ (emit p st).canon = st.canon ∧
    PensZero (bitOf (emit p st).canon) (emit p st).pens := by
  refine ⟨⟨hwf.1, ?_⟩, rfl, rfl, ?_⟩
  · intro q hq
    rcases List.mem_cons.mp hq with rfl | hq'
    · exact hb
    · exact hwf.2 q hq'
  · intro q hq
    rcases List.mem_cons.mp hq with rfl | hq'
    · exact hv
    · exact hz q hq'

lemma addOp_complete (a b : Operand) (st : CState) (va vb : Int)
    (hwf : WFC st) (hz : PensZero (bitOf st.canon) st.pens)
    (hba : OpBelow st.nextBit a) (hbb : OpBelow st.nextBit b)
    (hva : operandVal (bitOf st.canon) a = va) (h0a : 0 ≤ va)
    (hvb : operandVal (bitOf st.canon) b = vb) (h0b : 0 ≤ vb) :
    StepOK st (addOp a b st).2 ∧
    OpBelow (addOp a b st).2.nextBit (addOp a b st).1 ∧
    PensZero (bitOf (addOp a b st).2.canon) (addOp a b st).2.pens ∧
    operandVal (bitOf (addOp a b st).2.canon) (addOp a b st).1 = va + vb := by
  have hlen := hwf.1
  have hlta : va < 2 ^ opWidth a := by
    rw [← hva]
    exact opVal_lt _ a (by rw [hva]; exact h0a)
  have hltb : vb < 2 ^ opWidth b := by
    rw [← hvb]
    exact opVal_lt _ b (by rw [hvb]; exact h0b)
  have hsum : va + vb < 2 ^ (max (opWidth a) (opWidth b) + 1) := by
    have h2a : (2 : Int) ^ opWidth a + 2 ^ opWidth b
        ≤ 2 ^ (max (opWidth a) (opWidth b) + 1) := two_pow_add_le _ _
    linarith
  have hcv : opCanon st a + opCanon st b = va + vb := by
    simp [opCanon, hva, hvb]
  simp only [addOp, hcv]
  have hpb := pushBlock_ok st (max (opWidth a) (opWidth b) + 1) (va + vb) hwf hz
    (by linarith) hsum
  obtain ⟨hwf1, hnb1, hcn1, hpn1, hz1, hval1⟩ := hpb
  have hsta : operandVal (bitOf (pushBlock (max (opWidth a) (opWidth b) + 1) (va + vb) st).canon) a = va := by
    rw [hcn1, operandVal_stable st.canon _ a st.nextBit hba hlen.ge, hva]
  have hstb : operandVal (bitOf (pushBlock (max (opWidth a) (opWidth b) + 1) (va + vb) st).canon) b = vb := by
    rw [hcn1, operandVal_stable st.canon _ b st.nextBit hbb hlen.ge, hvb]
  have hpen : penaltyVal (bitOf (pushBlock (max (opWidth a) (opWidth b) + 1) (va + vb) st).canon)
      (eqPen [(1, .block (blockBits st.nextBit (max (opWidth a) (opWidth b) + 1))), (-1, a), (-1, b)] 0) = 0 := by
    rw [eqPen_val]
    simp only [partsVal_cons, partsVal_nil, hval1, hsta, hstb]
    ring_nf
  have hbel : PBelow (pushBlock (max (opWidth a) (opWidth b) + 1) (va + vb) st).nextBit
      (eqPen [(1, .block (blockBits st.nextBit (max (opWidth a) (opWidth b) + 1))), (-1, a), (-1, b)] 0) := by
    apply eqPen_below
    intro q hq
    rcases List.mem_cons.mp hq with rfl | hq'
    · exact OpBelow_mono (blockBits_below st.nextBit _) (by rw [hnb1])
    · rcases List.mem_cons.mp hq' with rfl | hq''
      · exact OpBelow_mono hba (by rw [hnb1]; omega)
      · rcases List.mem_cons.mp hq'' with rfl | hq3
        · exact OpBelow_mono hbb (by rw [hnb1]; omega)
        · simp at hq3
  have hem := emit_pen_ok _ _ hwf1 hz1 hbel hpen
  obtain ⟨hwf2, hnb2, hcn2, hz2⟩ := hem
  refine ⟨⟨hwf2, ?_, ?_⟩, ?_, hz2, ?_⟩
  · rw [hnb2, hnb1]
    omega
  · exact ⟨encodeNat _ (va + vb).toNat, by rw [hcn2, hcn1]⟩
  · rw [hnb2]
    exact OpBelow_mono (blockBits_below st.nextBit _) (by rw [hnb1])
  · rw [hcn2]
    exact hval1

lemma subOp_complete (a b : Operand) (st : CState) (va vb : Int)
    (hwf : WFC st) (hz : PensZero (bitOf st.canon) st.pens)
    (hba : OpBelow st.nextBit a) (hbb : OpBelow st.nextBit b)
    (hva : operandVal (bitOf st.canon) a = va) (h0a : 0 ≤ va)
    (hvb : operandVal (bitOf st.canon) b = vb) (h0b : 0 ≤ vb)
    (hle : vb ≤ va) :
    StepOK st (subOp a b st).2 ∧
    OpBelow (subOp a b st).2.nextBit (subOp a b st).1 ∧
    PensZero (bitOf (subOp a b st).2.canon) (subOp a b st).2.pens ∧
    operandVal (bitOf (subOp a b st).2.canon) (subOp a b st).1 = va - vb := by
  have hlen := hwf.1
  have hlta : va < 2 ^ opWidth a := by
    rw [← hva]
    exact opVal_lt _ a (by rw [hva]; exact h0a)
  have hdlt : va - vb < 2 ^ opWidth a := by linarith
  have hcv : opCanon st a - opCanon st b = va - vb := by
    simp [opCanon, hva, hvb]
  simp only [subOp, hcv]
  have hpb := pushBlock_ok st (opWidth a) (va - vb) hwf hz (by linarith) hdlt
  obtain ⟨hwf1, hnb1, hcn1, hpn1, hz1, hval1⟩ := hpb
  have hsta : operandVal (bitOf (pushBlock (opWidth a) (va - vb) st).canon) a = va := by
    rw [hcn1, operandVal_stable st.canon _ a st.nextBit hba hlen.ge, hva]
  have hstb : operandVal (bitOf (pushBlock (opWidth a) (va - vb) st).canon) b = vb := by
    rw [hcn1, operandVal_stable st.canon _ b st.nextBit hbb hlen.ge, hvb]
  have hpen : penaltyVal (bitOf (pushBlock (opWidth a) (va - vb) st).canon)
      (eqPen [(1, .block (blockBits st.nextBit (opWidth a))), (1, b), (-1, a)] 0) = 0 := by
    rw [eqPen_val]
    simp only [partsVal_cons, partsVal_nil, hval1, hsta, hstb]
    ring_nf
  have hbel : PBelow (pushBlock (opWidth a) (va - vb) st).nextBit
      (eqPen [(1, .block (blockBits st.nextBit (opWidth a))), (1, b), (-1, a)] 0) := by
    apply eqPen_below
    intro q hq
    rcases List.mem_cons.mp hq with rfl | hq'
    · exact OpBelow_mono (blockBits_below st.nextBit _) (by rw [hnb1])
    · rcases List.mem_cons.mp hq' with rfl | hq''
      · exact OpBelow_mono hbb (by rw [hnb1]; omega)
      · rcases List.mem_cons.mp hq'' with rfl | hq3
        · exact OpBelow_mono hba (by rw [hnb1]; omega)
        · simp at hq3
  have hem := emit_pen_ok _ _ hwf1 hz1 hbel hpen
  obtain ⟨hwf2, hnb2, hcn2, hz2⟩ := hem
  refine ⟨⟨hwf2, ?_, ?_⟩, ?_, hz2, ?_⟩
  · rw [hnb2, hnb1]
    omega
  · exact ⟨encodeNat _ (va - vb).toNat, by rw [hcn2, hcn1]⟩
  · rw [hnb2]
    exact OpBelow_mono (blockBits_below st.nextBit _) (by rw [hnb1])
  · rw [hcn2]
    exact hval1

lemma StepOK_refl (st : CState) (hwf : WFC st) : StepOK st st :=
  ⟨hwf, le_refl _, [], by simp⟩

lemma StepOK_trans {s1 s2 s3 : CState} (h1 : StepOK s1 s2) (h2 : StepOK s2 s3) :
    StepOK s1 s3 := by
  obtain ⟨e1, he1⟩ := h1.2.2
  obtain ⟨e2, he2⟩ := h2.2.2
  exact ⟨h2.1, le_trans h1.2.1 h2.2.1, e1 ++ e2, by rw [he2, he1, List.append_assoc]⟩

lemma bitOf_stepOK {st su : CState} (h : StepOK st su) (hwf : WFC st) (i : Nat)
    (hi : i < st.nextBit) : bitOf su.canon i = bitOf st.canon i := by
  obtain ⟨ext, he⟩ := h.2.2
  rw [he]
  exact bitOf_append_lt st.canon ext i (by rw [hwf.1]; exact hi)

lemma operandVal_stepOK {st su : CState} (h : StepOK st su) (hwf : WFC st) (a : Operand)
    (hb : OpBelow st.nextBit a) :
    operandVal (bitOf su.canon) a = operandVal (bitOf st.canon) a := by
  obtain ⟨ext, he⟩ := h.2.2
  rw [he]
  exact operandVal_stable st.canon ext a st.nextBit hb hwf.1.ge

lemma lform_stepOK {st su : CState} (h : StepOK st su) (hwf : WFC st)
    (ts : List (Int × Nat)) (c : Int) (hb : ∀ t ∈ ts, t.2 < st.nextBit) :
    lform (bitOf su.canon) ts c = lform (bitOf st.canon) ts c := by
  obtain ⟨ext, he⟩ := h.2.2
  rw [he]
  exact lform_ext _ _ st.canon.length
    (fun i hi => bitOf_append_lt st.canon ext i hi) ts c
    (fun t ht => lt_of_lt_of_le (hb t ht) hwf.1.ge)

lemma mulRow_complete (l : Nat) : ∀ (lb : List Nat) (s : Int) (st : CState),
    WFC st → PensZero (bitOf st.canon) st.pens →
    l < st.nextBit → (∀ i ∈ lb, i < st.nextBit) →
    StepOK st (mulRow l lb s st).2 ∧
    (∀ t ∈ (mulRow l lb s st).1, t.2 < (mulRow l lb s st).2.nextBit) ∧
    PensZero (bitOf (mulRow l lb s st).2.canon) (mulRow l lb s st).2.pens ∧
    lform (bitOf (mulRow l lb s st).2.canon) (mulRow l lb s st).1 0
      = s * b2i (bitOf st.canon l) * ((decodeBits (bitOf st.canon) lb : Nat) : Int) := by
  intro lb
  induction lb with
  | nil =>
      intro s st hwf hz hl _
      refine ⟨StepOK_refl st hwf, ?_, hz, ?_⟩
      · intro t ht
        simp [mulRow] at ht
      · simp [mulRow, lform, decodeBits]
  | cons r rest ih =>
      intro s st hwf hz hl hb
      have hr : r < st.nextBit := hb r (by simp)
      have hpb := pushBit_ok st (bitOf st.canon l && bitOf st.canon r) hwf hz
      obtain ⟨hwfP, hnbP, hcnP, hpnP, hzP, hbitP⟩ := hpb
      have hstabl : bitOf (pushBit (bitOf st.canon l && bitOf st.canon r) st).canon l
          = bitOf st.canon l := by
        rw [hcnP]
        exact bitOf_append_lt st.canon _ l (by rw [hwf.1]; exact hl)
      have hstabr : bitOf (pushBit (bitOf st.canon l && bitOf st.canon r) st).canon r
          = bitOf st.canon r := by
        rw [hcnP]
        exact bitOf_append_lt st.canon _ r (by rw [hwf.1]; exact hr)
      have hand : penaltyVal (bitOf (pushBit (bitOf st.canon l && bitOf st.canon r) st).canon)
          (.andGate l r st.nextBit) = 0 := by
        rw [penaltyVal_eq_zero_iff]
        show bitOf _ st.nextBit = _
        rw [hbitP, hstabl, hstabr]
      have hbel : PBelow (pushBit (bitOf st.canon l && bitOf st.canon r) st).nextBit
          (.andGate l r st.nextBit) := by
        refine ⟨?_, ?_, ?_⟩ <;> rw [hnbP] <;> omega
      have hem := emit_pen_ok _ _ hwfP hzP hbel hand
      obtain ⟨hwf1, hnb1, hcn1, hz1⟩ := hem
      have hstep1 : StepOK st (emit (.andGate l r st.nextBit)
          (pushBit (bitOf st.canon l && bitOf st.canon r) st)) := by
        refine ⟨hwf1, ?_, ?_⟩
        · rw [hnb1, hnbP]
          omega
        · exact ⟨[bitOf st.canon l && bitOf st.canon r], by rw [hcn1, hcnP]⟩
      have hih := ih (2 * s) _ hwf1 hz1
        (by rw [hnb1, hnbP]; omega)
        (by intro i hi; rw [hnb1, hnbP]; exact lt_of_lt_of_le (hb i (by simp [hi])) (by omega))
      obtain ⟨hstep2, hterms, hz2, hlf⟩ := hih
      simp only [mulRow]
      refine ⟨StepOK_trans hstep1 hstep2, ?_, hz2, ?_⟩
      · intro t ht
        rcases List.mem_cons.mp ht with rfl | ht'
        · calc st.nextBit < (emit (.andGate l r st.nextBit)
              (pushBit (bitOf st.canon l && bitOf st.canon r) st)).nextBit := by
                rw [hnb1, hnbP]; omega
            _ ≤ _ := hstep2.2.1
        · exact hterms t ht'
      · rw [lform_cons, hlf]
        have hbitF : bitOf (mulRow l rest (2 * s)
            (emit (.andGate l r st.nextBit)
              (pushBit (bitOf st.canon l && bitOf st.canon r) st))).2.canon st.nextBit
            = (bitOf st.canon l && bitOf st.canon r) := by
          rw [bitOf_stepOK hstep2 hwf1 st.nextBit (by rw [hnb1, hnbP]; omega), hcn1, hcnP]
          have := bitOf_append_add st.canon [bitOf st.canon l && bitOf st.canon r] 0
          rw [← hwf.1]
          simpa [bitOf] using this
        have hlrest : bitOf (emit (.andGate l r st.nextBit)
            (pushBit (bitOf st.canon l && bitOf st.canon r) st)).canon l
            = bitOf st.canon l := by
          rw [hcn1]
          exact hstabl
        have hdrest : decodeBits (bitOf (emit (.andGate l r st.nextBit)
            (pushBit (bitOf st.canon l && bitOf st.canon r) st)).canon) rest
            = decodeBits (bitOf st.canon) rest := by
          rw [hcn1, hcnP]
          exact decode_stable st.canon _ rest
            (by intro i hi; rw [hwf.1]; exact hb i (by simp [hi]))
        rw [hbitF, hlrest, hdrest, decodeBits_cast_cons, b2i_and]
        ring

lemma mulRows_complete : ∀ (la lb : List Nat) (s : Int) (st : CState),
    WFC st → PensZero (bitOf st.canon) st.pens →
    (∀ i ∈ la, i < st.nextBit) → (∀ i ∈ lb, i < st.nextBit) →
    StepOK st (mulRows la lb s st).2 ∧
    (∀ t ∈ (mulRows la lb s st).1, t.2 < (mulRows la lb s st).2.nextBit) ∧
    PensZero (bitOf (mulRows la lb s st).2.canon) (mulRows la lb s st).2.pens ∧
    lform (bitOf (mulRows la lb s st).2.canon) (mulRows la lb s st).1 0
      = s * ((decodeBits (bitOf st.canon) la : Nat) : Int)
          * ((decodeBits (bitOf st.canon) lb : Nat) : Int) := by
  intro la
  induction la with
  | nil =>
      intro lb s st hwf hz _ _
      refine ⟨StepOK_refl st hwf, ?_, hz, ?_⟩
      · intro t ht
        simp [mulRows] at ht
      · simp [mulRows, lform, decodeBits]
  | cons l ls ih =>
      intro lb s st hwf hz hba hbb
      have hrow := mulRow_complete l lb s st hwf hz (hba l (by simp)) hbb
      obtain ⟨hstep1, hterms1, hz1, hlf1⟩ := hrow
      have hih := ih lb (2 * s) (mulRow l lb s st).2 hstep1.1 hz1
        (by intro i hi; exact lt_of_lt_of_le (hba i (by simp [hi])) hstep1.2.1)
        (by intro i hi; exact lt_of_lt_of_le (hbb i hi) hstep1.2.1)
      obtain ⟨hstep2, hterms2, hz2, hlf2⟩ := hih
      simp only [mulRows]
      refine ⟨StepOK_trans hstep1 hstep2, ?_, hz2, ?_⟩
      · intro t ht
        rcases List.mem_append.mp ht with ht' | ht'
        · exact lt_of_lt_of_le (hterms1 t ht') hstep2.2.1
        · exact hterms2 t ht'
      · have happ := lform_append (bitOf (mulRows ls lb (2 * s) (mulRow l lb s st).2).2.canon)
          (mulRow l lb s st).1 (mulRows ls lb (2 * s) (mulRow l lb s st).2).1 0 0
        rw [show (0 : Int) + 0 = 0 by ring] at happ
        rw [happ, hlf2]
        have hlf1' : lform (bitOf (mulRows ls lb (2 * s) (mulRow l lb s st).2).2.canon)
            (mulRow l lb s st).1 0
            = s * b2i (bitOf st.canon l) * ((decodeBits (bitOf st.canon) lb : Nat) : Int) := by
          rw [lform_stepOK hstep2 hstep1.1 _ 0 hterms1, hlf1]
        have hdla : decodeBits (bitOf (mulRow l lb s st).2.canon) ls
            = decodeBits (bitOf st.canon) ls := by
          obtain ⟨ext, he⟩ := hstep1.2.2
          rw [he]
          exact decode_stable st.canon ext ls
            (by intro i hi; rw [hwf.1]; exact hba i (by simp [hi]))
        have hdlb : decodeBits (bitOf (mulRow l lb s st).2.canon) lb
            = decodeBits (bitOf st.canon) lb := by
          obtain ⟨ext, he⟩ := hstep1.2.2
          rw [he]
          exact decode_stable st.canon ext lb
            (by intro i hi; rw [hwf.1]; exact hbb i hi)
        rw [hlf1', hdla, hdlb, decodeBits_cast_cons]
        ring

lemma scaled_complete (m : Int) (bb : Operand) (st : CState) (vb : Int)
    (hwf : WFC st) (hz : PensZero (bitOf st.canon) st.pens)
    (hbb : OpBelow st.nextBit bb)
    (h0m : 0 ≤ m)
    (hvb : operandVal (bitOf st.canon) bb = vb) (h0b : 0 ≤ vb) :
    StepOK st (emit (eqPen [(1, .block (blockBits st.nextBit (bitLen m.toNat + opWidth bb))), (-m, bb)] 0)
        (pushBlock (bitLen m.toNat + opWidth bb) (m * opCanon st bb) st)) ∧
    OpBelow (emit (eqPen [(1, .block (blockBits st.nextBit (bitLen m.toNat + opWidth bb))), (-m, bb)] 0)
        (pushBlock (bitLen m.toNat + opWidth bb) (m * opCanon st bb) st)).nextBit
      (.block (blockBits st.nextBit (bitLen m.toNat + opWidth bb))) ∧
    PensZero (bitOf (emit (eqPen [(1, .block (blockBits st.nextBit (bitLen m.toNat + opWidth bb))), (-m, bb)] 0)
        (pushBlock (bitLen m.toNat + opWidth bb) (m * opCanon st bb) st)).canon)
      (emit (eqPen [(1, .block (blockBits st.nextBit (bitLen m.toNat + opWidth bb))), (-m, bb)] 0)
        (pushBlock (bitLen m.toNat + opWidth bb) (m * opCanon st bb) st)).pens ∧
    operandVal (bitOf (emit (eqPen [(1, .block (blockBits st.nextBit (bitLen m.toNat + opWidth bb))), (-m, bb)] 0)
        (pushBlock (bitLen m.toNat + opWidth bb) (m * opCanon st bb) st)).canon)
      (.block (blockBits st.nextBit (bitLen m.toNat + opWidth bb))) = m * vb := by
  have hlen := hwf.1
  have hltm : m < 2 ^ bitLen m.toNat := by
    rw [← Int.toNat_of_nonneg h0m]
    exact_mod_cast bitLen_lt m.toNat
  have hltb : vb < 2 ^ opWidth bb := by
    rw [← hvb]
    exact opVal_lt _ bb (by rw [hvb]; exact h0b)
  have hprod : m * vb < 2 ^ (bitLen m.toNat + opWidth bb) :=
    mul_lt_two_pow m vb _ _ h0m h0b hltm hltb
  have hcv : m * opCanon st bb = m * vb := by
    simp [opCanon, hvb]
  rw [hcv]
  have hpb := pushBlock_ok st (bitLen m.toNat + opWidth bb) (m * vb) hwf hz
    (mul_nonneg h0m h0b) hprod
  obtain ⟨hwf1, hnb1, hcn1, hpn1, hz1, hval1⟩ := hpb
  have hstb : operandVal (bitOf (pushBlock (bitLen m.toNat + opWidth bb) (m * vb) st).canon) bb = vb := by
    rw [hcn1, operandVal_stable st.canon _ bb st.nextBit hbb hlen.ge, hvb]
  have hpen : penaltyVal (bitOf (pushBlock (bitLen m.toNat + opWidth bb) (m * vb) st).canon)
      (eqPen [(1, .block (blockBits st.nextBit (bitLen m.toNat + opWidth bb))), (-m, bb)] 0) = 0 := by
    rw [eqPen_val]
    simp only [partsVal_cons, partsVal_nil, hval1, hstb]
    ring_nf
  have hbel : PBelow (pushBlock (bitLen m.toNat + opWidth bb) (m * vb) st).nextBit
      (eqPen [(1, .block (blockBits st.nextBit (bitLen m.toNat + opWidth bb))), (-m, bb)] 0) := by
    apply eqPen_below
    intro q hq
    rcases List.mem_cons.mp hq with rfl | hq'
    · exact OpBelow_mono (blockBits_below st.nextBit _) (by rw [hnb1])
    · rcases List.mem_cons.mp hq' with rfl | hq''
      · exact OpBelow_mono hbb (by rw [hnb1]; omega)
      · simp at hq''
  have hem := emit_pen_ok _ _ hwf1 hz1 hbel hpen
  obtain ⟨hwf2, hnb2, hcn2, hz2⟩ := hem
  refine ⟨⟨hwf2, ?_, ?_⟩, ?_, hz2, ?_⟩
  · rw [hnb2, hnb1]
    omega
  · exact ⟨encodeNat _ (m * vb).toNat, by rw [hcn2, hcn1]⟩
  · rw [hnb2]
    exact OpBelow_mono (blockBits_below st.nextBit _) (by rw [hnb1])
  · rw [hcn2]
    exact hval1

lemma mulOp_complete (a b : Operand) (st : CState) (va vb : Int)
    (hwf : WFC st) (hz : PensZero (bitOf st.canon) st.pens)
    (hba : OpBelow st.nextBit a) (hbb : OpBelow st.nextBit b)
    (hva : operandVal (bitOf st.canon) a = va) (h0a : 0 ≤ va)
    (hvb : operandVal (bitOf st.canon) b = vb) (h0b : 0 ≤ vb) :
    StepOK st (mulOp a b st).2 ∧
    OpBelow (mulOp a b st).2.nextBit (mulOp a b st).1 ∧
    PensZero (bitOf (mulOp a b st).2.canon) (mulOp a b st).2.pens ∧
    operandVal (bitOf (mulOp a b st).2.canon) (mulOp a b st).1 = va * vb := by
  cases a with
  | const m =>
      have hm : m = va := by
        simpa [operandVal] using hva
      subst hm
      simp only [mulOp]
      exact scaled_complete m b st vb hwf hz hbb h0a hvb h0b
  | block la =>
      cases b with
      | const n =>
          have hn : n = vb := by
            simpa [operandVal] using hvb
          subst hn
          simp only [mulOp]
          rw [show opCanon st (Operand.block la) * n = n * opCanon st (Operand.block la) from
            mul_comm _ _]
          have hs := scaled_complete n (.block la) st va hwf hz hba h0b hva h0a
          refine ⟨hs.1, hs.2.1, hs.2.2.1, ?_⟩
          rw [hs.2.2.2]
          ring
      | block lb =>
          have hrows := mulRows_complete la lb 1 st hwf hz hba hbb
          obtain ⟨hstep1, hterms1, hz1, hlf1⟩ := hrows
          have hcv : opCanon st (.block la) * opCanon st (.block lb) = va * vb := by
            simp only [opCanon, hva, hvb]
          have h0ab : 0 ≤ va * vb := mul_nonneg h0a h0b
          have hlta : va < 2 ^ la.length := by
            have := opVal_lt (bitOf st.canon) (.block la) (by rw [hva]; exact h0a)
            rw [hva] at this
            simpa [opWidth] using this
          have hltb : vb < 2 ^ lb.length := by
            have := opVal_lt (bitOf st.canon) (.block lb) (by rw [hvb]; exact h0b)
            rw [hvb] at this
            simpa [opWidth] using this
          have hprod : va * vb < 2 ^ (la.length + lb.length) :=
            mul_lt_two_pow va vb _ _ h0a h0b hlta hltb
          simp only [mulOp, hcv]
          have hpb := pushBlock_ok (mulRows la lb 1 st).2 (la.length + lb.length)
            (va * vb) hstep1.1 hz1 h0ab hprod
          obtain ⟨hwf2, hnb2, hcn2, hpn2, hz2, hval2⟩ := hpb
          have hstep2 : StepOK (mulRows la lb 1 st).2
              (pushBlock (la.length + lb.length) (va * vb) (mulRows la lb 1 st).2) := by
            refine ⟨hwf2, by rw [hnb2]; omega, ?_⟩
            exact ⟨encodeNat _ (va * vb).toNat, by rw [hcn2]⟩
          have hlfpen : penaltyVal
              (bitOf (pushBlock (la.length + lb.length) (va * vb) (mulRows la lb 1 st).2).canon)
              (.linEq (wTerms 1 (blockBits (mulRows la lb 1 st).2.nextBit (la.length + lb.length))
                ++ (mulRows la lb 1 st).1.map (fun t => (-t.1, t.2))) 0) = 0 := by
            have happ := lform_append
              (bitOf (pushBlock (la.length + lb.length) (va * vb) (mulRows la lb 1 st).2).canon)
              (wTerms 1 (blockBits (mulRows la lb 1 st).2.nextBit (la.length + lb.length)))
              ((mulRows la lb 1 st).1.map (fun t => (-t.1, t.2))) 0 0
            rw [show (0 : Int) + 0 = 0 by ring] at happ
            simp only [penaltyVal]
            rw [happ, lform_wTerms, lform_neg_map]
            have hterms' : lform (bitOf (pushBlock (la.length + lb.length) (va * vb)
                (mulRows la lb 1 st).2).canon) (mulRows la lb 1 st).1 0
                = lform (bitOf (mulRows la lb 1 st).2.canon) (mulRows la lb 1 st).1 0 :=
              lform_stepOK hstep2 hstep1.1 _ 0 hterms1
            rw [hterms', hlf1]
            have hda : ((decodeBits (bitOf st.canon) la : Nat) : Int) = va := hva
            have hdb : ((decodeBits (bitOf st.canon) lb : Nat) : Int) = vb := hvb
            have : ((decodeBits (bitOf (pushBlock (la.length + lb.length) (va * vb)
                (mulRows la lb 1 st).2).canon)
                (blockBits (mulRows la lb 1 st).2.nextBit (la.length + lb.length)) : Nat) : Int)
                = va * vb := hval2
            rw [this, hda, hdb]
            ring_nf
          have hbel : PBelow (pushBlock (la.length + lb.length) (va * vb)
              (mulRows la lb 1 st).2).nextBit
              (.linEq (wTerms 1 (blockBits (mulRows la lb 1 st).2.nextBit (la.length + lb.length))
                ++ (mulRows la lb 1 st).1.map (fun t => (-t.1, t.2))) 0) := by
            intro t ht
            rcases List.mem_append.mp ht with ht' | ht'
            · have := wTerms_below (blockBits (mulRows la lb 1 st).2.nextBit (la.length + lb.length))
                1 ((mulRows la lb 1 st).2.nextBit + (la.length + lb.length))
                (fun i hi => (blockBits_mem _ _ i hi).2) t ht'
              rw [hnb2]
              exact this
            · rcases List.mem_map.mp ht' with ⟨u, hu, rfl⟩
              rw [hnb2]
              exact lt_of_lt_of_le (hterms1 u hu) (by omega)
          have hem := emit_pen_ok _ _ hwf2 hz2 hbel hlfpen
          obtain ⟨hwf3, hnb3, hcn3, hz3⟩ := hem
          refine ⟨StepOK_trans hstep1 (StepOK_trans hstep2 ⟨hwf3, by rw [hnb3], by
            exact ⟨[], by rw [hcn3]; simp⟩⟩), ?_, hz3, ?_⟩
          · rw [hnb3, hnb2]
            exact OpBelow_mono (blockBits_below (mulRows la lb 1 st).2.nextBit _) (le_refl _)
          · rw [hcn3]
            exact hval2

lemma modOp_complete (a b : Operand) (st : CState) (va vb : Int)
    (hwf : WFC st) (hz : PensZero (bitOf st.canon) st.pens)
    (hba : OpBelow st.nextBit a) (hbb : OpBelow st.nextBit b)
    (hva : operandVal (bitOf st.canon) a = va) (h0a : 0 ≤ va)
    (hvb : operandVal (bitOf st.canon) b = vb) (hpos : 0 < vb) :
    StepOK st (modOp a b st).2 ∧
    OpBelow (modOp a b st).2.nextBit (modOp a b st).1 ∧
    PensZero (bitOf (modOp a b st).2.canon) (modOp a b st).2.pens ∧
    operandVal (bitOf (modOp a b st).2.canon) (modOp a b st).1 = Int.fmod va vb := by
  have hca : opCanon st a = va := hva
  have hcb : opCanon st b = vb := hvb
  have hlta : va < 2 ^ opWidth a := by
    rw [← hva]
    exact opVal_lt _ a (by rw [hva]; exact h0a)
  have hltb : vb < 2 ^ opWidth b := by
    rw [← hvb]
    exact opVal_lt _ b (by rw [hvb]; exact hpos.le)
  have h0q : 0 ≤ Int.fdiv va vb := by
    rw [Int.fdiv_eq_ediv va hpos.le]
    exact Int.ediv_nonneg h0a hpos.le
  have hqlt : Int.fdiv va vb < 2 ^ opWidth a := by
    rw [Int.fdiv_eq_ediv va hpos.le]
    exact lt_of_le_of_lt (Int.ediv_le_self vb h0a) hlta
  have h0r : 0 ≤ Int.fmod va vb := Int.fmod_nonneg' va hpos
  have hrltb : Int.fmod va vb < vb := Int.fmod_lt_of_pos va hpos
  have hrlt : Int.fmod va vb < 2 ^ opWidth b := lt_trans hrltb hltb
  have h0s : 0 ≤ vb - Int.fmod va vb - 1 := by omega
  have hslt : vb - Int.fmod va vb - 1 < 2 ^ opWidth b := by omega
  have hdivmod : vb * Int.fdiv va vb + Int.fmod va vb = va := Int.fdiv_add_fmod va vb
  simp only [modOp, hca, hcb, if_neg hpos.ne']
  set qv := Int.fdiv va vb with hqv
  set rv := Int.fmod va vb with hrv
  set qs := blockBits st.nextBit (opWidth a) with hqs
  set st1 := pushBlock (opWidth a) qv st with hst1
  have hpb1 := pushBlock_ok st (opWidth a) qv hwf hz h0q hqlt
  rw [← hst1, ← hqs] at hpb1
  obtain ⟨hwf1, hnb1, hcn1, hpn1, hz1, hval1⟩ := hpb1
  have hstep1 : StepOK st st1 := by
    refine ⟨hwf1, by rw [hnb1]; omega, ?_⟩
    exact ⟨encodeNat (opWidth a) qv.toNat, hcn1⟩
  set rs := blockBits st1.nextBit (opWidth b) with hrs
  set st2 := pushBlock (opWidth b) rv st1 with hst2
  have hpb2 := pushBlock_ok st1 (opWidth b) rv hwf1 hz1 h0r hrlt
  rw [← hst2, ← hrs] at hpb2
  obtain ⟨hwf2, hnb2, hcn2, hpn2, hz2, hval2⟩ := hpb2
  have hstep2 : StepOK st1 st2 := by
    refine ⟨hwf2, by rw [hnb2]; omega, ?_⟩
    exact ⟨encodeNat (opWidth b) rv.toNat, hcn2⟩
  have hbqs : OpBelow st1.nextBit (.block qs) := by
    rw [hnb1, hqs]
    exact blockBits_below st.nextBit (opWidth a)
  have hbrs : OpBelow st2.nextBit (.block rs) := by
    rw [hnb2, hrs]
    exact blockBits_below st1.nextBit (opWidth b)
  have hqv2 : operandVal (bitOf st2.canon) (.block qs) = qv := by
    rw [operandVal_stepOK hstep2 hwf1 (.block qs) hbqs]
    exact hval1
  have hvb2 : operandVal (bitOf st2.canon) b = vb := by
    rw [operandVal_stepOK (StepOK_trans hstep1 hstep2) hwf b hbb]
    exact hvb
  have hmul := mulOp_complete (.block qs) b st2 qv vb hwf2 hz2
    (OpBelow_mono hbqs hstep2.2.1) (OpBelow_mono hbb (StepOK_trans hstep1 hstep2).2.1)
    hqv2 h0q hvb2 hpos.le
  set mres := mulOp (.block qs) b st2 with hmres
  obtain ⟨hstep3, hmb, hz3, hmval⟩ := hmul
  have hrs3 : operandVal (bitOf mres.2.canon) (.block rs) = rv := by
    rw [operandVal_stepOK hstep3 hwf2 (.block rs) hbrs]
    exact hval2
  have hva3 : operandVal (bitOf mres.2.canon) a = va := by
    rw [operandVal_stepOK (StepOK_trans hstep1 (StepOK_trans hstep2 hstep3)) hwf a hba]
    exact hva
  have hvb3 : operandVal (bitOf mres.2.canon) b = vb := by
    rw [operandVal_stepOK (StepOK_trans hstep1 (StepOK_trans hstep2 hstep3)) hwf b hbb]
    exact hvb
  have hpen4 : penaltyVal (bitOf mres.2.canon)
      (eqPen [(1, mres.1), (1, .block rs), (-1, a)] 0) = 0 := by
    rw [eqPen_val]
    have hzero : partsVal (bitOf mres.2.canon) [(1, mres.1), (1, .block rs), (-1, a)] 0 = 0 := by
      simp only [partsVal_cons, partsVal_nil, hmval, hrs3, hva3]
      linear_combination hdivmod
    rw [hzero]
    ring
  have hbel4 : PBelow mres.2.nextBit (eqPen [(1, mres.1), (1, .block rs), (-1, a)] 0) := by
    apply eqPen_below
    intro q hq
    rcases List.mem_cons.mp hq with rfl | hq'
    · exact hmb
    · rcases List.mem_cons.mp hq' with rfl | hq''
      · exact OpBelow_mono hbrs hstep3.2.1
      · rcases List.mem_cons.mp hq'' with rfl | hq3
        · exact OpBelow_mono hba (StepOK_trans hstep1 (StepOK_trans hstep2 hstep3)).2.1
        · simp at hq3
  set st4 := emit (eqPen [(1, mres.1), (1, .block rs), (-1, a)] 0) mres.2 with hst4
  have hem4 := emit_pen_ok mres.2 _ hstep3.1 hz3 hbel4 hpen4
  rw [← hst4] at hem4
  obtain ⟨hwf4, hnb4, hcn4, hz4⟩ := hem4
  have hstep4 : StepOK mres.2 st4 := ⟨hwf4, by rw [hnb4], [], by rw [hcn4]; simp⟩
  set ss := blockBits st4.nextBit (opWidth b) with hss
  set st5 := pushBlock (opWidth b) (vb - rv - 1) st4 with hst5
  have hpb5 := pushBlock_ok st4 (opWidth b) (vb - rv - 1) hwf4 hz4 h0s hslt
  rw [← hst5, ← hss] at hpb5
  obtain ⟨hwf5, hnb5, hcn5, hpn5, hz5, hval5⟩ := hpb5
  have hstep5 : StepOK st4 st5 := by
    refine ⟨hwf5, by rw [hnb5]; omega, ?_⟩
    exact ⟨encodeNat (opWidth b) (vb - rv - 1).toNat, hcn5⟩
  have hbrs4 : OpBelow st4.nextBit (.block rs) := by
    rw [hnb4]
    exact OpBelow_mono hbrs hstep3.2.1
  have hrs5 : operandVal (bitOf st5.canon) (.block rs) = rv := by
    rw [operandVal_stepOK hstep5 hwf4 (.block rs) hbrs4, hcn4]
    exact hrs3
  have hvb5 : operandVal (bitOf st5.canon) b = vb := by
    rw [operandVal_stepOK hstep5 hwf4 b (by
      rw [hnb4]
      exact OpBelow_mono hbb (StepOK_trans hstep1 (StepOK_trans hstep2 hstep3)).2.1), hcn4]
    exact hvb3
  have hpen6 : penaltyVal (bitOf st5.canon)
      (eqPen [(1, .block rs), (1, .block ss), (-1, b)] 1) = 0 := by
    rw [eqPen_val]
    have hzero : partsVal (bitOf st5.canon) [(1, .block rs), (1, .block ss), (-1, b)] 1 = 0 := by
      simp only [partsVal_cons, partsVal_nil, hrs5, hval5, hvb5]
      ring
    rw [hzero]
    ring
  have hbel6 : PBelow st5.nextBit (eqPen [(1, .block rs), (1, .block ss), (-1, b)] 1) := by
    apply eqPen_below
    intro q hq
    rcases List.mem_cons.mp hq with rfl | hq'
    · refine OpBelow_mono hbrs4 ?_
      rw [hnb5]
      omega
    · rcases List.mem_cons.mp hq' with rfl | hq''
      · rw [hnb5, hss]
        exact blockBits_below st4.nextBit (opWidth b)
      · rcases List.mem_cons.mp hq'' with rfl | hq3
        · refine OpBelow_mono hbb ?_
          have h1 := (StepOK_trans hstep1 (StepOK_trans hstep2 hstep3)).2.1
          rw [hnb5, hnb4]
          omega
        · simp at hq3
  set st6 := emit (eqPen [(1, .block rs), (1, .block ss), (-1, b)] 1) st5 with hst6
  have hem6 := emit_pen_ok st5 _ hwf5 hz5 hbel6 hpen6
  rw [← hst6] at hem6
  obtain ⟨hwf6, hnb6, hcn6, hz6⟩ := hem6
  have hstep6 : StepOK st5 st6 := ⟨hwf6, by rw [hnb6], [], by rw [hcn6]; simp⟩
  refine ⟨StepOK_trans hstep1 (StepOK_trans hstep2 (StepOK_trans hstep3
    (StepOK_trans hstep4 (StepOK_trans hstep5 hstep6)))), ?_, hz6, ?_⟩
  · rw [hnb6]
    refine OpBelow_mono hbrs4 ?_
    rw [hnb5]
    omega
  · rw [hcn6]
    exact hrs5

/-! ### Nonnegative evaluation and registry layout -/

lemma evalNN_nonneg (fe : String → Int) : ∀ (e : Expr) (v : Int),
    evalNN fe e = some v → 0 ≤ v := by
  intro e
  induction e with
  | lit n =>
      intro v h
      simp only [evalNN] at h
      split_ifs at h with h0
      · cases h
        exact h0
  | var x =>
      intro v h
      simp only [evalNN] at h
      split_ifs at h with h0
      · cases h
        exact h0
  | binOp o l r ihl ihr =>
      intro v h
      simp only [evalNN] at h
      cases hel : evalNN fe l with
      | none => rw [hel] at h; cases h
      | some va =>
          cases her : evalNN fe r with
          | none => rw [hel, her] at h; cases h
          | some vb =>
              rw [hel, her] at h
              dsimp only at h
              have h0a := ihl va hel
              have h0b := ihr vb her
              cases o with
              | add =>
                  simp only [applyOpNN] at h
                  cases h
                  positivity
              | sub =>
                  simp only [applyOpNN] at h
                  split_ifs at h with hle
                  cases h
                  omega
              | mul =>
                  simp only [applyOpNN] at h
                  cases h
                  positivity
              | mod =>
                  simp only [applyOpNN] at h
                  split_ifs at h with hlt
                  cases h
                  exact Int.fmod_nonneg' va hlt

lemma evalNN_evalExpr (fe : String → Int) : ∀ (e : Expr) (v : Int),
    evalNN fe e = some v → evalExpr fe e = some v := by
  intro e
  induction e with
  | lit n =>
      intro v h
      simp only [evalNN] at h
      split_ifs at h with h0
      exact h
  | var x =>
      intro v h
      simp only [evalNN] at h
      split_ifs at h with h0
      exact h
  | binOp o l r ihl ihr =>
      intro v h
      simp only [evalNN] at h
      cases hel : evalNN fe l with
      | none => rw [hel] at h; cases h
      | some va =>
          cases her : evalNN fe r with
          | none => rw [hel, her] at h; cases h
          | some vb =>
              rw [hel, her] at h
              dsimp only at h
              simp only [evalExpr, ihl va hel, ihr vb her]
              cases o with
              | add => exact h
              | sub =>
                  simp only [applyOpNN] at h
                  split_ifs at h with hle
                  simp only [applyOp]
                  exact h
              | mul => exact h
              | mod =>
                  simp only [applyOpNN] at h
                  split_ifs at h with hlt
                  simp only [applyOp]
                  rw [if_neg (by omega : ¬ vb = 0)]
                  exact h

lemma findVar_bound : ∀ (vs : List VarInfo) (x : String) (off : Nat) (oi : Nat × VarInfo),
    findVar vs x off = some oi →
    off ≤ oi.1 ∧ oi.1 + oi.2.width ≤ off + totalWidth vs := by
  intro vs
  induction vs with
  | nil => intro x off oi h; simp [findVar] at h
  | cons v rest ih =>
      intro x off oi h
      have htw : totalWidth (v :: rest) = v.width + totalWidth rest := by
        simp [totalWidth]
      by_cases hname : v.name = x
      · rw [findVar, if_pos hname] at h
        cases h
        simp only
        omega
      · rw [findVar, if_neg hname] at h
        have := ih x (off + v.width) oi h
        omega

lemma VarsEnc_extend (reg : List VarInfo) (fe : String → Int) {st su : CState}
    (h : VarsEnc reg fe st) (hst : StepOK st su) (hwf : WFC st)
    (htw : totalWidth reg ≤ st.nextBit) : VarsEnc reg fe su := by
  intro x oi hf hfree
  obtain ⟨ext, he⟩ := hst.2.2
  rw [he, decode_stable st.canon ext _ ?_]
  · exact h x oi hf hfree
  · intro i hi
    have hb := (blockBits_mem _ _ i hi).2
    have hfb := findVar_bound reg x 0 oi hf
    rw [hwf.1]
    omega

lemma initCanon_length : ∀ (vs : List VarInfo) (env : String → Nat),
    (initCanon vs env).length = totalWidth vs := by
  intro vs
  induction vs with
  | nil => intro env; rfl
  | cons v rest ih =>
      intro env
      simp [initCanon, totalWidth, encodeNat_length, ih]

lemma initCanon_decode : ∀ (vs : List VarInfo) (env : String → Nat) (x : String)
    (c : List Bool) (oi : Nat × VarInfo),
    findVar vs x c.length = some oi →
    (∀ v ∈ vs, v.fixedVal = none → env v.name < 2 ^ v.width) →
    (∀ v ∈ vs, ∀ f, v.fixedVal = some f → f < 2 ^ v.width) →
    decodeBits (bitOf (c ++ initCanon vs env)) (blockBits oi.1 oi.2.width)
      = (match oi.2.fixedVal with | some f => f | none => env x) := by
  intro vs
  induction vs with
  | nil => intro env x c oi h _ _; simp [findVar] at h
  | cons v rest ih =>
      intro env x c oi h hfb hro
      by_cases hname : v.name = x
      · rw [findVar, if_pos hname] at h
        cases h
        simp only [initCanon]
        have hval : (match v.fixedVal with | some n => n | none => env v.name) < 2 ^ v.width := by
          cases hfix : v.fixedVal with
          | some f => exact hro v (by simp) f hfix
          | none => exact hfb v (by simp) hfix
        rw [decode_blockBits]
        have ht : ((encodeNat v.width (match v.fixedVal with | some n => n | none => env v.name))
            ++ initCanon rest env).take v.width
            = encodeNat v.width (match v.fixedVal with | some n => n | none => env v.name) := by
          rw [List.take_append_of_le_length (by rw [encodeNat_length])]
          exact List.take_of_length_le (by rw [encodeNat_length])
        rw [ht, decode_encode _ _ hval]
        cases hfix : v.fixedVal with
        | some f => simp
        | none => simp [hname]
      · rw [findVar, if_neg hname] at h
        have hlen : (c ++ encodeNat v.width (match v.fixedVal with | some n => n | none => env v.name)).length
            = c.length + v.width := by
          simp [encodeNat_length]
        have hrec := ih env x
          (c ++ encodeNat v.width (match v.fixedVal with | some n => n | none => env v.name)) oi
          (by rw [hlen]; exact h)
          (fun u hu => hfb u (by simp [hu]))
          (fun u hu => hro u (by simp [hu]))
        simp only [initCanon]
        rw [← List.append_assoc]
        exact hrec

lemma initState_wfc (reg : List VarInfo) (env : String → Nat) :
    WFC (initState reg env) := by
  constructor
  · simp [initState, initCanon_length]
  · intro p hp
    simp [initState] at hp

lemma initState_varsEnc (reg : List VarInfo) (env : String → Nat)
    (hfb : FreeBound reg env) (hro : RegOK reg) :
    VarsEnc reg (fullEnv reg env) (initState reg env) := by
  intro x oi hf hfree
  have hd := initCanon_decode reg env x [] oi (by simpa using hf)
    (fun v hv => hfb v hv) (fun v hv => hro v hv)
  simp only [List.nil_append] at hd
  show ((decodeBits (bitOf (initCanon reg env)) (blockBits oi.1 oi.2.width) : Nat) : Int) = _
  rw [hd]
  simp only [hfree, fullEnv, hf]

lemma fullEnv_found (reg : List VarInfo) (env : String → Nat) (x : String)
    (oi : Nat × VarInfo) (hf : findVar reg x 0 = some oi) :
    fullEnv reg env x
      = (match oi.2.fixedVal with | some v => (v : Int) | none => (env x : Int)) := by
  unfold fullEnv
  rw [hf]

lemma fullEnv_fixedEnc (reg : List VarInfo) (env : String → Nat) :
    FixedEnc reg (fullEnv reg env) := by
  intro x oi hf f hfix
  rw [fullEnv_found reg env x oi hf, hfix]

lemma fullEnv_nonneg (reg : List VarInfo) (env : String → Nat) (x : String) :
    0 ≤ fullEnv reg env x := by
  cases hf : findVar reg x 0 with
  | none =>
      have hstep : fullEnv reg env x = 0 := by
        unfold fullEnv
        rw [hf]
      rw [hstep]
  | some oi =>
      rw [fullEnv_found reg env x oi hf]
      cases hfix : oi.2.fixedVal with
      | some f => exact Int.ofNat_nonneg f
      | none => exact Int.ofNat_nonneg _

lemma compileE_complete (reg : List VarInfo) (fe : String → Int) (hfx : FixedEnc reg fe) :
    ∀ (e : Expr) (st : CState) (v : Int),
    WFC st → totalWidth reg ≤ st.nextBit →
    VarsEnc reg fe st →
    PensZero (bitOf st.canon) st.pens →
    (∀ x ∈ varsOf e, (findVar reg x 0).isSome = true) →
    evalNN fe e = some v →
    StepOK st (compileE reg e st).2 ∧
    OpBelow (compileE reg e st).2.nextBit (compileE reg e st).1 ∧
    PensZero (bitOf (compileE reg e st).2.canon) (compileE reg e st).2.pens ∧
    operandVal (bitOf (compileE reg e st).2.canon) (compileE reg e st).1 = v := by
  intro e
  induction e with
  | lit n =>
      intro st v hwf htw henc hz hvars h
      simp only [evalNN] at h
      split_ifs at h with h0
      cases h
      exact ⟨StepOK_refl st hwf, trivial, hz, rfl⟩
  | var x =>
      intro st v hwf htw henc hz hvars h
      have hsome := hvars x (by simp [varsOf])
      rw [Option.isSome_iff_exists] at hsome
      obtain ⟨oi, hf⟩ := hsome
      simp only [evalNN] at h
      split_ifs at h with h0
      cases h
      simp only [compileE, hf]
      cases hfix : oi.2.fixedVal with
      | some f =>
          refine ⟨StepOK_refl st hwf, ?_, hz, ?_⟩
          · simp [hfix, OpBelow]
          · simp only [hfix]
            show (f : Int) = fe x
            exact (hfx x oi hf f hfix).symm
      | none =>
          refine ⟨StepOK_refl st hwf, ?_, hz, ?_⟩
          · simp only [hfix]
            intro i hi
            have hb := (blockBits_mem _ _ i hi).2
            have hfb := findVar_bound reg x 0 oi hf
            omega
          · simp only [hfix]
            exact henc x oi hf hfix
  | binOp o l r ihl ihr =>
      intro st v hwf htw henc hz hvars h
      simp only [evalNN] at h
      cases hel : evalNN fe l with
      | none => rw [hel] at h; cases h
      | some va =>
          cases her : evalNN fe r with
          | none => rw [hel, her] at h; cases h
          | some vb =>
              rw [hel, her] at h
              dsimp only at h
              have h0a := evalNN_nonneg fe l va hel
              have h0b := evalNN_nonneg fe r vb her
              have hvl : ∀ x ∈ varsOf l, (findVar reg x 0).isSome = true :=
                fun x hx => hvars x (by simp [varsOf, hx])
              have hvr : ∀ x ∈ varsOf r, (findVar reg x 0).isSome = true :=
                fun x hx => hvars x (by simp [varsOf, hx])
              obtain ⟨hstepL, hbL, hzL, hvaL⟩ := ihl st va hwf htw henc hz hvl hel
              have htwL : totalWidth reg ≤ (compileE reg l st).2.nextBit :=
                le_trans htw hstepL.2.1
              have hencL : VarsEnc reg fe (compileE reg l st).2 :=
                VarsEnc_extend reg fe henc hstepL hwf htw
              obtain ⟨hstepR, hbR, hzR, hvbR⟩ :=
                ihr (compileE reg l st).2 vb hstepL.1 htwL hencL hzL hvr her
              have hvaR : operandVal (bitOf (compileE reg r (compileE reg l st).2).2.canon)
                  (compileE reg l st).1 = va := by
                rw [operandVal_stepOK hstepR hstepL.1 _ hbL]
                exact hvaL
              have hbLR : OpBelow (compileE reg r (compileE reg l st).2).2.nextBit
                  (compileE reg l st).1 := OpBelow_mono hbL hstepR.2.1
              simp only [compileE]
              cases o with
              | add =>
                  simp only [applyOpNN] at h
                  cases h
                  have hop := addOp_complete (compileE reg l st).1
                    (compileE reg r (compileE reg l st).2).1
                    (compileE reg r (compileE reg l st).2).2 va vb
                    hstepR.1 hzR hbLR hbR hvaR h0a hvbR h0b
                  exact ⟨StepOK_trans hstepL (StepOK_trans hstepR hop.1),
                    hop.2.1, hop.2.2.1, hop.2.2.2⟩
              | sub =>
                  simp only [applyOpNN] at h
                  split_ifs at h with hle
                  cases h
                  have hop := subOp_complete (compileE reg l st).1
                    (compileE reg r (compileE reg l st).2).1
                    (compileE reg r (compileE reg l st).2).2 va vb
                    hstepR.1 hzR hbLR hbR hvaR h0a hvbR h0b hle
                  exact ⟨StepOK_trans hstepL (StepOK_trans hstepR hop.1),
                    hop.2.1, hop.2.2.1, hop.2.2.2⟩
              | mul =>
                  simp only [applyOpNN] at h
                  cases h
                  have hop := mulOp_complete (compileE reg l st).1
                    (compileE reg r (compileE reg l st).2).1
                    (compileE reg r (compileE reg l st).2).2 va vb
                    hstepR.1 hzR hbLR hbR hvaR h0a hvbR h0b
                  exact ⟨StepOK_trans hstepL (StepOK_trans hstepR hop.1),
                    hop.2.1, hop.2.2.1, hop.2.2.2⟩
              | mod =>
                  simp only [applyOpNN] at h
                  split_ifs at h with hlt
                  cases h
                  have hop := modOp_complete (compileE reg l st).1
                    (compileE reg r (compileE reg l st).2).1
                    (compileE reg r (compileE reg l st).2).2 va vb
                    hstepR.1 hzR hbLR hbR hvaR h0a hvbR hlt
                  exact ⟨StepOK_trans hstepL (StepOK_trans hstepR hop.1),
                    hop.2.1, hop.2.2.1, hop.2.2.2⟩

/-! ### The penalties do not depend on the canonical seed -/

lemma emit_nextBit (p : Penalty) (st : CState) : (emit p st).nextBit = st.nextBit := rfl

lemma emit_pens (p : Penalty) (st : CState) : (emit p st).pens = p :: st.pens := rfl

lemma pushBlock_nextBit (w : Nat) (v : Int) (st : CState) :
    (pushBlock w v st).nextBit = st.nextBit + w := rfl

lemma pushBlock_pens (w : Nat) (v : Int) (st : CState) :
    (pushBlock w v st).pens = st.pens := rfl

lemma addOp_indep (a b : Operand) (s1 s2 : CState)
    (hn : s1.nextBit = s2.nextBit) (hp : s1.pens = s2.pens) :
    (addOp a b s1).1 = (addOp a b s2).1 ∧
    (addOp a b s1).2.nextBit = (addOp a b s2).2.nextBit ∧
    (addOp a b s1).2.pens = (addOp a b s2).2.pens := by
  refine ⟨?_, ?_, ?_⟩ <;> simp [addOp, emit, pushBlock, hn, hp]

lemma subOp_indep (a b : Operand) (s1 s2 : CState)
    (hn : s1.nextBit = s2.nextBit) (hp : s1.pens = s2.pens) :
    (subOp a b s1).1 = (subOp a b s2).1 ∧
    (subOp a b s1).2.nextBit = (subOp a b s2).2.nextBit ∧
    (subOp a b s1).2.pens = (subOp a b s2).2.pens := by
  refine ⟨?_, ?_, ?_⟩ <;> simp [subOp, emit, pushBlock, hn, hp]

lemma mulRow_indep (l : Nat) : ∀ (lb : List Nat) (s : Int) (s1 s2 : CState),
    s1.nextBit = s2.nextBit → s1.pens = s2.pens →
    (mulRow l lb s s1).1 = (mulRow l lb s s2).1 ∧
    (mulRow l lb s s1).2.nextBit = (mulRow l lb s s2).2.nextBit ∧
    (mulRow l lb s s1).2.pens = (mulRow l lb s s2).2.pens := by
  intro lb
  induction lb with
  | nil => intro s s1 s2 hn hp; exact ⟨rfl, hn, hp⟩
  | cons r rest ih =>
      intro s s1 s2 hn hp
      simp only [mulRow]
      have hstep := ih (2 * s) (emit (.andGate l r s1.nextBit)
          (pushBit (bitOf s1.canon l && bitOf s1.canon r) s1))
        (emit (.andGate l r s2.nextBit) (pushBit (bitOf s2.canon l && bitOf s2.canon r) s2))
        (by simp [emit, pushBit, hn]) (by simp [emit, pushBit, hn, hp])
      exact ⟨by rw [hstep.1, hn], hstep.2.1, hstep.2.2⟩

lemma mulRows_indep : ∀ (la lb : List Nat) (s : Int) (s1 s2 : CState),
    s1.nextBit = s2.nextBit → s1.pens = s2.pens →
    (mulRows la lb s s1).1 = (mulRows la lb s s2).1 ∧
    (mulRows la lb s s1).2.nextBit = (mulRows la lb s s2).2.nextBit ∧
    (mulRows la lb s s1).2.pens = (mulRows la lb s s2).2.pens := by
  intro la
  induction la with
  | nil => intro lb s s1 s2 hn hp; exact ⟨rfl, hn, hp⟩
  | cons l ls ih =>
      intro lb s s1 s2 hn hp
      simp only [mulRows]
      have hrow := mulRow_indep l lb s s1 s2 hn hp
      have hrest := ih lb (2 * s) (mulRow l lb s s1).2 (mulRow l lb s s2).2
        hrow.2.1 hrow.2.2
      exact ⟨by rw [hrow.1, hrest.1], hrest.2.1, hrest.2.2⟩

lemma mulOp_indep (a b : Operand) (s1 s2 : CState)
    (hn : s1.nextBit = s2.nextBit) (hp : s1.pens = s2.pens) :
    (mulOp a b s1).1 = (mulOp a b s2).1 ∧
    (mulOp a b s1).2.nextBit = (mulOp a b s2).2.nextBit ∧
    (mulOp a b s1).2.pens = (mulOp a b s2).2.pens := by
  cases a with
  | const m =>
      refine ⟨?_, ?_, ?_⟩ <;> simp [mulOp, emit, pushBlock, hn, hp]
  | block la =>
      cases b with
      | const n =>
          refine ⟨?_, ?_, ?_⟩ <;> simp [mulOp, emit, pushBlock, hn, hp]
      | block lb =>
          have hrows := mulRows_indep la lb 1 s1 s2 hn hp
          simp only [mulOp, emit, pushBlock]
          refine ⟨by rw [hrows.2.1], by rw [hrows.2.1], ?_⟩
          rw [hrows.1, hrows.2.1, hrows.2.2]

lemma modOp_indep (a b : Operand) (s1 s2 : CState)
    (hn : s1.nextBit = s2.nextBit) (hp : s1.pens = s2.pens) :
    (modOp a b s1).1 = (modOp a b s2).1 ∧
    (modOp a b s1).2.nextBit = (modOp a b s2).2.nextBit ∧
    (modOp a b s1).2.pens = (modOp a b s2).2.pens := by
  simp only [modOp]
  have h2n : (pushBlock (opWidth b) (if opCanon s1 b = 0 then 0 else Int.fmod (opCanon s1 a) (opCanon s1 b))
        (pushBlock (opWidth a) (if opCanon s1 b = 0 then 0 else Int.fdiv (opCanon s1 a) (opCanon s1 b)) s1)).nextBit
      = (pushBlock (opWidth b) (if opCanon s2 b = 0 then 0 else Int.fmod (opCanon s2 a) (opCanon s2 b))
        (pushBlock (opWidth a) (if opCanon s2 b = 0 then 0 else Int.fdiv (opCanon s2 a) (opCanon s2 b)) s2)).nextBit := by
    simp only [pushBlock_nextBit, hn]
  have h2p : (pushBlock (opWidth b) (if opCanon s1 b = 0 then 0 else Int.fmod (opCanon s1 a) (opCanon s1 b))
        (pushBlock (opWidth a) (if opCanon s1 b = 0 then 0 else Int.fdiv (opCanon s1 a) (opCanon s1 b)) s1)).pens
      = (pushBlock (opWidth b) (if opCanon s2 b = 0 then 0 else Int.fmod (opCanon s2 a) (opCanon s2 b))
        (pushBlock (opWidth a) (if opCanon s2 b = 0 then 0 else Int.fdiv (opCanon s2 a) (opCanon s2 b)) s2)).pens := by
    simp only [pushBlock_pens, hp]
  have hop : Operand.block (blockBits s1.nextBit (opWidth a))
      = Operand.block (blockBits s2.nextBit (opWidth a)) := by rw [hn]
  rw [hop]
  have hmul := mulOp_indep (.block (blockBits s2.nextBit (opWidth a))) b _ _ h2n h2p
  refine ⟨?_, ?_, ?_⟩
  · simp only [pushBlock_nextBit, hn]
  · simp only [emit_nextBit, pushBlock_nextBit]
    rw [hmul.2.1]
  · simp only [emit_pens, pushBlock_pens, emit_nextBit, pushBlock_nextBit]
    rw [hmul.1, hmul.2.1, hmul.2.2, hn]

lemma compileE_indep (reg : List VarInfo) : ∀ (e : Expr) (s1 s2 : CState),
    s1.nextBit = s2.nextBit → s1.pens = s2.pens →
    (compileE reg e s1).1 = (compileE reg e s2).1 ∧
    (compileE reg e s1).2.nextBit = (compileE reg e s2).2.nextBit ∧
    (compileE reg e s1).2.pens = (compileE reg e s2).2.pens := by
  intro e
  induction e with
  | lit n => intro s1 s2 hn hp; exact ⟨rfl, hn, hp⟩
  | var x => intro s1 s2 hn hp; exact ⟨rfl, hn, hp⟩
  | binOp o l r ihl ihr =>
      intro s1 s2 hn hp
      have hal := ihl s1 s2 hn hp
      have har := ihr (compileE reg l s1).2 (compileE reg l s2).2 hal.2.1 hal.2.2
      simp only [compileE]
      cases o with
      | add =>
          rw [hal.1, har.1]
          exact addOp_indep _ _ _ _ har.2.1 har.2.2
      | sub =>
          rw [hal.1, har.1]
          exact subOp_indep _ _ _ _ har.2.1 har.2.2
      | mul =>
          rw [hal.1, har.1]
          exact mulOp_indep _ _ _ _ har.2.1 har.2.2
      | mod =>
          rw [hal.1, har.1]
          exact modOp_indep _ _ _ _ har.2.1 har.2.2

/-! ### Assembled completeness and the ground-state theorems -/

lemma assembled_complete (reg : List VarInfo) (e : Expr) (t : Int) (env : String → Nat)
    (hro : RegOK reg) (hfb : FreeBound reg env)
    (hvars : ∀ x ∈ varsOf e, (findVar reg x 0).isSome = true)
    (hnn : evalNN (fullEnv reg env) e = some t) :
    ∃ σ : Nat → Bool, energy (compileModel reg e t (fun _ => 0)) σ = 0 := by
  have hc := compileE_complete reg (fullEnv reg env) (fullEnv_fixedEnc reg env) e
    (initState reg env) t (initState_wfc reg env) (by simp [initState])
    (initState_varsEnc reg env hfb hro) (by intro p hp; simp [initState] at hp) hvars hnn
  obtain ⟨hstep, hb, hzf, hval⟩ := hc
  have hroot : penaltyVal (bitOf (compileE reg e (initState reg env)).2.canon)
      (eqPen [(1, (compileE reg e (initState reg env)).1)] (-t)) = 0 := by
    rw [eqPen_val]
    have hzero : partsVal (bitOf (compileE reg e (initState reg env)).2.canon)
        [(1, (compileE reg e (initState reg env)).1)] (-t) = 0 := by
      simp only [partsVal_cons, partsVal_nil, hval]
      ring
    rw [hzero]
    ring
  have hz1 : PensZero (bitOf (compileE reg e (initState reg env)).2.canon)
      (compileModel reg e t env).pens := by
    rw [assembled_pens, pensZero_cons]
    exact ⟨hroot, hzf⟩
  have he1 : energy (compileModel reg e t env) (bitOf (compileE reg e (initState reg env)).2.canon) = 0 :=
    energy_zero_of_pens _ _ hz1
  have hpens : (compileModel reg e t (fun _ => 0)).pens = (compileModel reg e t env).pens := by
    have hind := compileE_indep reg e (initState reg (fun _ => 0)) (initState reg env) rfl rfl
    rw [assembled_pens, assembled_pens, hind.1, hind.2.2]
  refine ⟨bitOf (compileE reg e (initState reg env)).2.canon, ?_⟩
  unfold energy
  unfold energy at he1
  rw [hpens]
  exact he1

lemma energy_ext (m : Model) (σ τ : Nat → Bool) (n : Nat)
    (hb : ∀ p ∈ m.pens, PBelow n p) (h : ∀ i, i < n → σ i = τ i) :
    energy m σ = energy m τ := by
  unfold energy
  congr 1
  apply List.map_congr_left
  intro p hp
  exact penaltyVal_ext σ τ n p (hb p hp) h

/-- C1 counterexample: the expression (a - 1) + 1 with a single free 1-bit
variable and target 0 is satisfied over the integers by a = 0, but the
compiled model has no zero-energy assignment at all: the unsigned Sub gadget
cannot represent the negative intermediate a - 1.  The claim's "ground
energy 0 iff some assignment satisfies the expression" is therefore false as
stated. -/
theorem c1_counterexample :
    evalExpr (fullEnv regCE (fun _ => 0)) exprCE = some 0 ∧
    assemble regCE exprCE 0 = Except.ok modelCE ∧
    ¬ ∃ σ : Nat → Bool, energy modelCE σ = 0 := by
  refine ⟨by decide, rfl, ?_⟩
  rintro ⟨σ, hσ⟩
  have hbound : ∀ p ∈ modelCE.pens, PBelow 4 p := by decide
  have hagree : ∀ i, i < 4 → σ i = bitOf [σ 0, σ 1, σ 2, σ 3] i := by
    intro i hi
    interval_cases i <;> rfl
  have heq := energy_ext modelCE σ (bitOf [σ 0, σ 1, σ 2, σ 3]) 4 hbound hagree
  have hfin : ∀ b0 b1 b2 b3 : Bool, 0 < energy modelCE (bitOf [b0, b1, b2, b3]) := by decide
  have hpos := hfin (σ 0) (σ 1) (σ 2) (σ 3)
  omega

/-- C1 amended: for every assembled model, (i) every bit assignment has
nonnegative energy; (ii) every zero-energy assignment decodes to variable
values satisfying the expression-equals-target equation (so when no
satisfying assignment exists, every assignment has strictly positive
energy); and (iii) whenever some in-range assignment of the free variables
satisfies the equation with all intermediate results nonnegative (the
spec's documented assumption for the unsigned Sub gadget), the model has a
zero-energy (ground) assignment. -/
theorem c1_amended : ∀ (reg : List VarInfo) (e : Expr) (t : Int) (m : Model),
    assemble reg e t = Except.ok m →
    (∀ σ : Nat → Bool, 0 ≤ energy m σ) ∧
    (∀ σ : Nat → Bool, energy m σ = 0 → evalExpr (envOf reg σ) e = some t) ∧
    (∀ env : String → Nat, RegOK reg → FreeBound reg env →
      evalNN (fullEnv reg env) e = some t → ∃ σ : Nat → Bool, energy m σ = 0) := by
  intro reg e t m hok
  unfold assemble at hok
  cases hcv : checkVars reg e with
  | error er => rw [hcv] at hok; cases hok
  | ok u =>
      rw [hcv] at hok
      cases hok
      refine ⟨fun σ => energy_nonneg _ σ,
        fun σ hσ => assembled_sound reg e t (fun _ => 0) σ hσ, ?_⟩
      intro env hro hfb hnn
      refine assembled_complete reg e t env hro hfb ?_ hnn
      intro x hx
      unfold checkVars at hcv
      split_ifs at hcv with hall
      exact List.all_eq_true.mp hall x hx

/-- Witness for C1 amended: Example 1's model has the zero-energy ground
state promised by part (iii) at the satisfying sample a = 7, b = 7, d = 5. -/
theorem c1_amended_witness : ∃ σ : Nat → Bool, energy model1 σ = 0 :=
  (c1_amended reg1 expr1 0 model1 rfl).2.2 env1
    (by
      intro v hv f hf
      fin_cases hv <;> simp_all <;> omega)
    (by
      intro v hv hfix
      fin_cases hv <;> simp_all <;> decide)
    (by decide)

end SamerAlgorithms
